import Mathlib

/-!
Verification of the simulation engine of sinplegame.py against its
natural-language specification.

The Python engine is shallowly embedded: pure computations become Lean
functions; mutation of the object graph (units referenced from players and
tiles) is modelled by threading an explicit world, a list of unit records
updated by id, which matches Python's in-place mutation as long as ids are
unique (they are: each unit gets a fresh id).  Unbounded loops and the
mutual recursion of take_damage carry an explicit fuel argument; functions
whose loop may be cut short by fuel return an Option so that a fuel-exhausted
run is distinguishable from a completed one.  Machine integers are Int/Nat
(Python ints are unbounded, so no wrap-around modelling is needed).
-/

namespace Sinple

/-- Positions are integer grid coordinates (x, y), as in the Python tuples. -/
abbrev Pos : Type := ℤ × ℤ

/-- Manhattan distance, from sinplegame.distance. -/
def distance (p q : Pos) : ℕ :=
  (p.1 - q.1).natAbs + (p.2 - q.2).natAbs

/-- The five terrain kinds of TERRAIN_TYPES ("P", "M", "F", "G", "B"). -/
inductive Terrain
  | plains
  | mountain
  | forest
  | gold_mine
  | base_tile
deriving DecidableEq

/-- TERRAIN_TYPES[...]["move_cost"]. -/
def move_cost : Terrain → ℕ
  | .plains => 1
  | .mountain => 2
  | .forest => 2
  | .gold_mine => 1
  | .base_tile => 1

/-- TERRAIN_TYPES[...]["defense_bonus"]. -/
def terrain_defense_bonus : Terrain → ℕ
  | .plains => 0
  | .mountain => 2
  | .forest => 1
  | .gold_mine => 0
  | .base_tile => 1

/-- TERRAIN_TYPES[...]["vision_cost"]. -/
def vision_cost : Terrain → ℕ
  | .plains => 1
  | .mountain => 2
  | .forest => 2
  | .gold_mine => 1
  | .base_tile => 1

/-- The status-effect names of STATUS_EFFECTS_INFO. -/
inductive Status
  | poison
  | stun
  | evade
  | charge
  | shield_wall
deriving DecidableEq

/-- The ability names appearing in UNIT_STATS plus the legacy "Shield Wall"
string still checked in take_damage. -/
inductive Ability
  | bash
  | long_shot
  | charge
  | fireball
  | heal
  | evade
  | shield_wall
deriving DecidableEq

/-- The unit types of UNIT_STATS. -/
inductive UType
  | warrior
  | archer
  | cavalry
  | mage
  | healer
  | scout
  | base
deriving DecidableEq

/-- The per-type stat record of UNIT_STATS. -/
structure BaseStats where
  hp : ℤ
  attack : ℤ
  defense : ℤ
  attack_range : ℕ
  move_range : ℕ
  vision_range : ℕ
  cost : ℕ
  xp_value : ℕ
  ability : Option Ability
  ability_cooldown : ℕ
  ability_duration : ℕ
deriving DecidableEq

/-- UNIT_STATS, entry by entry (Base hp is BASE_STARTING_HP = 100). -/
def unit_stats : UType → BaseStats
  | .warrior => ⟨25, 6, 3, 1, 3, 2, 50, 10, some .bash, 5, 0⟩
  | .archer => ⟨15, 4, 1, 4, 2, 4, 60, 12, some .long_shot, 4, 0⟩
  | .cavalry => ⟨30, 7, 2, 1, 5, 3, 80, 15, some .charge, 5, 1⟩
  | .mage => ⟨12, 5, 0, 3, 2, 3, 70, 15, some .fireball, 6, 0⟩
  | .healer => ⟨15, 1, 1, 1, 3, 3, 75, 8, some .heal, 3, 0⟩
  | .scout => ⟨12, 2, 0, 1, 6, 5, 40, 8, some .evade, 4, 1⟩
  | .base => ⟨100, 0, 2, 0, 0, 2, 0, 50, none, 0, 0⟩

/-- POISON_DAMAGE. -/
def POISON_DAMAGE : ℤ := 2

/-- MAX_LEVEL = max(XP_LEVELS.keys()). -/
def MAX_LEVEL : ℕ := 4

/-- XP_LEVELS[level][0], the xp threshold of a level. -/
def xp_threshold : ℕ → ℕ
  | 2 => 20
  | 3 => 50
  | 4 => 100
  | _ => 0

/-- XP_LEVELS[level][1]["hp"]. -/
def hp_bonus_at : ℕ → ℕ
  | 2 => 5
  | 3 => 5
  | 4 => 10
  | _ => 0

/-- XP_LEVELS[level][1]["attack"]. -/
def attack_bonus_at : ℕ → ℕ
  | 2 => 1
  | 3 => 1
  | 4 => 2
  | _ => 0

/-- XP_LEVELS[level][1]["defense"]. -/
def defense_bonus_at : ℕ → ℕ
  | 2 => 0
  | 3 => 1
  | 4 => 1
  | _ => 0

/-- sum(f(lvl) for lvl in range(2, level + 1)), the cumulative level bonus. -/
def level_bonus_sum (f : ℕ → ℕ) (level : ℕ) : ℕ :=
  ((List.range' 2 (level - 1)).map f).sum

/-- The mutable state of a Unit object (Unit.__init__ fields). -/
structure GUnit where
  id : ℕ
  faction : ℕ
  utype : UType
  pos : Pos
  is_alive : Bool
  base_hp : ℤ
  base_attack : ℤ
  base_defense : ℤ
  attack_range : ℕ
  base_move_range : ℕ
  vision_range : ℕ
  xp_value : ℕ
  ability_name : Option Ability
  max_ability_cooldown : ℕ
  ability_duration : ℕ
  level : ℕ
  xp : ℕ
  xp_to_next_level : Option ℕ
  hp : ℤ
  attack : ℤ
  defense : ℤ
  move_range : ℕ
  ability_cooldown_timer : ℕ
  ability_active_timer : ℕ
  has_moved : Bool
  has_attacked : Bool
  has_used_ability : Bool
  status_effects : List (Status × ℕ)
deriving DecidableEq

/-- Unit.__init__: a fresh level-1 unit of the given type.
xp_to_next_level starts at XP_LEVELS[2][0] = 20. -/
def init_unit (uid fac : ℕ) (ty : UType) (p : Pos) : GUnit :=
  let s := unit_stats ty
  { id := uid, faction := fac, utype := ty, pos := p, is_alive := true,
    base_hp := s.hp, base_attack := s.attack, base_defense := s.defense,
    attack_range := s.attack_range, base_move_range := s.move_range,
    vision_range := s.vision_range, xp_value := s.xp_value,
    ability_name := s.ability, max_ability_cooldown := s.ability_cooldown,
    ability_duration := s.ability_duration,
    level := 1, xp := 0, xp_to_next_level := some 20,
    hp := s.hp, attack := s.attack, defense := s.defense,
    move_range := s.move_range, ability_cooldown_timer := 0,
    ability_active_timer := 0,
    has_moved := false, has_attacked := false, has_used_ability := false,
    status_effects := [] }

/-- Membership test for the status_effects dict ("X" in self.status_effects).
The dict is modelled as an insertion-ordered association list. -/
def has_status (u : GUnit) (s : Status) : Bool :=
  u.status_effects.any (fun e => e.1 = s)

/-- Dict assignment self.status_effects[s] = d: refresh in place or append. -/
def status_set : List (Status × ℕ) → Status → ℕ → List (Status × ℕ)
  | [], s, d => [(s, d)]
  | e :: rest, s, d =>
    if e.1 = s then (s, d) :: rest else e :: status_set rest s d

/-- Dict deletion del self.status_effects[s] (keys are unique). -/
def status_del : List (Status × ℕ) → Status → List (Status × ℕ)
  | [], _ => []
  | e :: rest, s => if e.1 = s then rest else e :: status_del rest s

/-- Unit.apply_status (all Status constructors are in STATUS_EFFECTS_INFO, so
the unknown-effect early return never fires). -/
def apply_status (u : GUnit) (s : Status) (dur : ℕ) : GUnit :=
  { u with status_effects := status_set u.status_effects s dur }

/-- Unit.max_hp: base hp plus cumulative level hp bonuses. -/
def max_hp (u : GUnit) : ℤ :=
  u.base_hp + (level_bonus_sum hp_bonus_at u.level : ℤ)

/-- Unit._update_stats_for_level: recompute attack/defense from base stats
plus cumulative level bonuses. -/
def update_stats_for_level (u : GUnit) : GUnit :=
  { u with
    attack := u.base_attack + (level_bonus_sum attack_bonus_at u.level : ℤ),
    defense := u.base_defense + (level_bonus_sum defense_bonus_at u.level : ℤ) }

/-- Unit.level_up: raise the level, heal fully to the new max hp, recompute
stats, then update the xp-to-next-level bookkeeping (infinity is none). -/
def level_up (u : GUnit) : GUnit :=
  if MAX_LEVEL ≤ u.level then u
  else
    let u1 := { u with level := u.level + 1 }
    let u2 := { u1 with hp := max_hp u1 }
    let u3 := update_stats_for_level u2
    if u3.level < MAX_LEVEL then
      { u3 with xp_to_next_level := some (xp_threshold (u3.level + 1)) }
    else
      { u3 with xp := 0, xp_to_next_level := none }

/-- The while-loop guard of gain_xp: self.xp >= self.xp_to_next_level
(false against the float('inf') sentinel, i.e. none). -/
def xp_ready (u : GUnit) : Bool :=
  match u.xp_to_next_level with
  | some t => t ≤ u.xp
  | none => false

/-- The while loop of gain_xp; each iteration raises the level, so
MAX_LEVEL iterations of fuel always suffice. -/
def gain_xp_loop : ℕ → GUnit → GUnit
  | 0, u => u
  | f + 1, u =>
    if xp_ready u ∧ u.level < MAX_LEVEL then gain_xp_loop f (level_up u) else u

/-- Unit.gain_xp. -/
def gain_xp (amount : ℕ) (u : GUnit) : GUnit :=
  if MAX_LEVEL ≤ u.level then u
  else gain_xp_loop MAX_LEVEL { u with xp := u.xp + amount }

/-- Object lookup by unit id in the world list. -/
def find_unit (world : List GUnit) (uid : ℕ) : Option GUnit :=
  world.find? (fun u => u.id == uid)

/-- In-place mutation of the unit object with the given id. -/
def update_unit (world : List GUnit) (uid : ℕ) (f : GUnit → GUnit) :
    List GUnit :=
  world.map (fun u => if u.id == uid then f u else u)

/-- Lines 298-307 of take_damage: defense plus the Shield Wall and Evade
temporary bonuses. -/
def effective_defense (u : GUnit) : ℤ :=
  u.defense
    + (if u.ability_name = some Ability.shield_wall ∧ 0 < u.ability_active_timer
       then 3 else 0)
    + (if has_status u Status.evade then 2 else 0)

/-- Lines 309-312 of take_damage: effective defense plus the terrain defense
bonus of the tile under the unit (tb is the map's defense-bonus field). -/
def total_defense (tb : Pos → ℕ) (u : GUnit) : ℤ :=
  effective_defense u + (tb u.pos : ℤ)

/-- Line 316 of take_damage: actual_damage = max(1, damage - total_defense). -/
def actual_damage (tb : Pos → ℕ) (u : GUnit) (damage : ℤ) : ℤ :=
  max 1 (damage - total_defense tb u)

/-- Unit.can_retaliate. -/
def can_retaliate (u : GUnit) : Bool :=
  u.is_alive && decide (1 ≤ u.attack_range) && !u.has_attacked
    && !(has_status u Status.stun)

/-- Unit.take_damage.  The recursion models the retaliation call
attacker.take_damage(self.attack, attacker=self); each recursive round
strictly reduces total hp, so any fuel above the combined hp suffices.
Fuel 0 returns the world unchanged (never reached with enough fuel). -/
def take_damage (fuel : ℕ) (tb : Pos → ℕ) (world : List GUnit) (self_id : ℕ)
    (attacker_id : Option ℕ) (damage : ℤ) : List GUnit :=
  match fuel with
  | 0 => world
  | fuel + 1 =>
    match find_unit world self_id with
    | none => world
    | some self =>
      if !self.is_alive then world
      else
        let ad := actual_damage tb self damage
        let hp1 := self.hp - ad
        if hp1 ≤ 0 then
          let world1 :=
            update_unit world self_id (fun u => { u with hp := 0, is_alive := false })
          match attacker_id with
          | none => world1
          | some aid =>
            match find_unit world1 aid with
            | none => world1
            | some atk =>
              if atk.is_alive then update_unit world1 aid (gain_xp self.xp_value)
              else world1
        else
          let world1 := update_unit world self_id (fun u => { u with hp := hp1 })
          match attacker_id with
          | none => world1
          | some aid =>
            match find_unit world1 aid, find_unit world1 self_id with
            | some atk, some self1 =>
              if atk.is_alive && can_retaliate self1
                  && decide (distance self1.pos atk.pos ≤ self1.attack_range) then
                let world2 := take_damage fuel tb world1 aid (some self_id) self1.attack
                update_unit world2 self_id (fun u => { u with has_attacked := true })
              else world1
            | _, _ => world1

/-- The attack branch of Game.handle_action: the target takes the attacker's
attack as damage (with retaliation resolved inside take_damage), then the
attacker's has_attacked flag is set. -/
def handle_attack (fuel : ℕ) (tb : Pos → ℕ) (world : List GUnit)
    (attacker_id target_id : ℕ) : List GUnit :=
  match find_unit world attacker_id with
  | none => world
  | some atk =>
    let world1 := take_damage fuel tb world target_id (some attacker_id) atk.attack
    update_unit world1 attacker_id (fun u => { u with has_attacked := true })

/-- GameMap.is_valid_coordinate against a width-W, height-H grid. -/
def is_valid_coordinate (W H : ℕ) (p : Pos) : Bool :=
  decide (0 ≤ p.1) && decide (p.1 < (W : ℤ)) && decide (0 ≤ p.2)
    && decide (p.2 < (H : ℤ))

/-- GameMap.get_unit_at with check_visibility=False: the live unit standing
on the cell, if any (tiles hold at most one live unit). -/
def get_unit_at (world : List GUnit) (p : Pos) : Option GUnit :=
  world.find? (fun u => u.pos == p && u.is_alive)

/-- The target argument of use_ability: a unit object, a position tuple, or
None (Python dispatches on isinstance). -/
inductive ATarget
  | unitT (uid : ℕ)
  | cellT (p : Pos)
  | noneT
deriving DecidableEq

/-- Unit.can_use_ability. -/
def can_use_ability (u : GUnit) : Bool :=
  u.ability_name.isSome && (u.ability_cooldown_timer == 0)
    && !(has_status u Status.stun)

/-- Lines 459-462 of use_ability: set the cooldown and tentatively mark the
ability (and attack) actions as used. -/
def flags_raise (u : GUnit) : GUnit :=
  { u with
    ability_cooldown_timer := u.max_ability_cooldown
    has_used_ability := true
    has_attacked := true }

/-- The shared failure epilogue of use_ability (lines 558-562): refund the
cooldown and reset the tentatively set action flags. -/
def ability_fail (world : List GUnit) (self_id : ℕ) (rolls : List Bool) :
    List GUnit × List Bool × Bool :=
  (update_unit world self_id
      (fun u =>
        { u with
          ability_cooldown_timer := 0
          has_used_ability := false
          has_attacked := false }),
    rolls, false)

/-- The cell scan of the Fireball branch: for x in range(tx-1, tx+2), for y in
range(ty-1, ty+2), keeping cells with Manhattan distance <= 1 that are on
the map. -/
def aoe_cells (W H : ℕ) (t : Pos) : List Pos :=
  ((([-1, 0, 1] : List ℤ).flatMap
      (fun dx => (([-1, 0, 1] : List ℤ).map (fun dy => (t.1 + dx, t.2 + dy)))))).filter
    (fun p => decide (distance t p ≤ 1) && is_valid_coordinate W H p)

/-- One hit of the Fireball loop: damage the unit (retaliation included),
then, if it survived, consume one random roll for the poison chance.
The roll stream models random.random() < poison_chance outcomes. -/
def fireball_hit (fuel : ℕ) (tb : Pos → ℕ) (st : List GUnit × List Bool)
    (hid self_id : ℕ) (fdmg : ℤ) : List GUnit × List Bool :=
  let w1 := take_damage fuel tb st.1 hid (some self_id) fdmg
  match find_unit w1 hid with
  | some hu =>
    if hu.is_alive then
      match st.2 with
      | r :: rs =>
        (if r then update_unit w1 hid (fun u => apply_status u Status.poison 3)
         else w1, rs)
      | [] => (w1, [])
    else (w1, st.2)
  | none => (w1, st.2)

/-- Unit.use_ability.  Returns the updated world, the unconsumed random
rolls, and the success flag.  The cooldown is set and the action flags are
tentatively raised up front; every failure path goes through ability_fail. -/
def use_ability (fuel : ℕ) (tb : Pos → ℕ) (W H : ℕ) (rolls : List Bool)
    (world : List GUnit) (self_id : ℕ) (target : ATarget) :
    List GUnit × List Bool × Bool :=
  match find_unit world self_id with
  | none => (world, rolls, false)
  | some self =>
    if !(can_use_ability self) then (world, rolls, false)
    else
      let world1 := update_unit world self_id flags_raise
      match self.ability_name with
      | some .bash =>
        match target with
        | .unitT tid =>
          match find_unit world1 tid with
          | some tu =>
            if tu.faction != self.faction && tu.is_alive then
              if distance self.pos tu.pos == 1 then
                (update_unit world1 tid (fun u => apply_status u Status.stun 1),
                  rolls, true)
              else ability_fail world1 self_id rolls
            else ability_fail world1 self_id rolls
          | none => ability_fail world1 self_id rolls
        | _ => ability_fail world1 self_id rolls
      | some .long_shot =>
        (update_unit world1 self_id
            (fun u => { u with ability_active_timer := 2, has_attacked := false }),
          rolls, true)
      | some .charge =>
        (update_unit world1 self_id
            (fun u => { apply_status u Status.charge 1 with has_attacked := false }),
          rolls, true)
      | some .fireball =>
        match target with
        | .cellT p =>
          if is_valid_coordinate W H p then
            if decide ((self.attack_range : ℕ) < distance self.pos p) then
              ability_fail world1 self_id rolls
            else
              let affected :=
                (aoe_cells W H p).filterMap (fun c => (get_unit_at world1 c).map (·.id))
              let fdmg := self.attack + 2
              let res := affected.foldl
                (fun (st : List GUnit × List Bool) (hid : ℕ) =>
                  fireball_hit fuel tb st hid self_id fdmg)
                (world1, rolls)
              (res.1, res.2, true)
          else ability_fail world1 self_id rolls
        | _ => ability_fail world1 self_id rolls
      | some .heal =>
        match target with
        | .unitT tid =>
          match find_unit world1 tid with
          | some tu =>
            if tu.is_alive && tu.faction == self.faction then
              if decide (distance self.pos tu.pos ≤ self.attack_range) then
                let heal_amount : ℤ := 10 + (self.level : ℤ)
                let actual_healed := min heal_amount (max_hp tu - tu.hp)
                (update_unit world1 tid (fun u => { u with hp := u.hp + actual_healed }),
                  rolls, true)
              else ability_fail world1 self_id rolls
            else ability_fail world1 self_id rolls
          | none => ability_fail world1 self_id rolls
        | _ => ability_fail world1 self_id rolls
      | some .evade =>
        (update_unit world1 self_id
            (fun u => { apply_status u Status.evade u.ability_duration with
                        has_attacked := false }),
          rolls, true)
      | some .shield_wall => ability_fail world1 self_id rolls
      | none => ability_fail world1 self_id rolls

/-- The duration-decrement tail of one tick_status_effects iteration
(lines 590-594): durations at 1 are queued for removal, others are written
back decremented. -/
def tick_decrement (world : List GUnit) (removes : List Status) (self_id : ℕ)
    (ed : Status × ℕ) : List GUnit × List Status × Bool :=
  let nd := ed.2 - 1
  if nd = 0 then (world, removes ++ [ed.1], false)
  else
    (update_unit world self_id
        (fun u => { u with status_effects := status_set u.status_effects ed.1 nd }),
      removes, false)

/-- One iteration of the tick_status_effects loop over the snapshot of the
effects dict; the Bool component records the break taken when poison kills
the unit (the poison entry is then neither decremented nor removed). -/
def tick_effect_step (fuel : ℕ) (tb : Pos → ℕ) (self_id : ℕ)
    (acc : List GUnit × List Status × Bool) (ed : Status × ℕ) :
    List GUnit × List Status × Bool :=
  if acc.2.2 then acc
  else if ed.1 = Status.poison then
    let w1 := take_damage fuel tb acc.1 self_id none POISON_DAMAGE
    match find_unit w1 self_id with
    | some u1 =>
      if !u1.is_alive then (w1, acc.2.1, true)
      else tick_decrement w1 acc.2.1 self_id ed
    | none => (w1, acc.2.1, true)
  else tick_decrement acc.1 acc.2.1 self_id ed

/-- Unit.tick_status_effects: apply poison damage, decrement durations over a
snapshot of the dict, then delete the expired effects. -/
def tick_status_effects (fuel : ℕ) (tb : Pos → ℕ) (world : List GUnit)
    (self_id : ℕ) : List GUnit :=
  match find_unit world self_id with
  | none => world
  | some self =>
    if !self.is_alive then world
    else
      let st := self.status_effects.foldl (tick_effect_step fuel tb self_id)
        (world, [], false)
      st.2.1.foldl
        (fun w eff =>
          update_unit w self_id
            (fun u =>
              if has_status u eff then
                { u with status_effects := status_del u.status_effects eff }
              else u))
        st.1

/-- Unit.tick_cooldowns: decrement the ability cooldown and the temporary
ability-active timer when positive. -/
def tick_cooldowns (world : List GUnit) (self_id : ℕ) : List GUnit :=
  update_unit world self_id
    (fun u =>
      let u1 :=
        if 0 < u.ability_cooldown_timer then
          { u with ability_cooldown_timer := u.ability_cooldown_timer - 1 }
        else u
      if 0 < u1.ability_active_timer then
        { u1 with ability_active_timer := u1.ability_active_timer - 1 }
      else u1)

/-- Unit.reset_turn: clear the three per-turn action flags unless the unit is
stunned. -/
def reset_turn (world : List GUnit) (self_id : ℕ) : List GUnit :=
  update_unit world self_id
    (fun u =>
      if has_status u Status.stun then u
      else
        { u with
          has_moved := false
          has_attacked := false
          has_used_ability := false })

/-- The per-unit loop of Player.start_turn_updates (lines 888-892): over a
snapshot of the live units, tick status effects, then, if the unit survived
the tick, tick cooldowns and reset the turn flags.  Income collection and
the visibility refresh do not touch unit action state and are modelled
separately. -/
def start_turn_unit_loop (fuel : ℕ) (tb : Pos → ℕ) (world : List GUnit) :
    List GUnit :=
  let ids := (world.filter (fun u => u.is_alive)).map (fun u => u.id)
  ids.foldl
    (fun w uid =>
      let w1 := tick_status_effects fuel tb w uid
      match find_unit w1 uid with
      | some u => if u.is_alive then reset_turn (tick_cooldowns w1 uid) uid else w1
      | none => w1)
    world

/-- The 4-directional neighbour offsets used by movement and pathfinding,
in source scan order. -/
def neighbor_offsets : List Pos := [(0, 1), (0, -1), (1, 0), (-1, 0)]

/-- Association-list write visited[pos] = cost (replace or append). -/
def pos_cost_set : List (Pos × ℕ) → Pos → ℕ → List (Pos × ℕ)
  | [], p, c => [(p, c)]
  | e :: rest, p, c =>
    if e.1 = p then (p, c) :: rest else e :: pos_cost_set rest p c

/-- One neighbour examination of the get_valid_moves BFS, operating on the
(queue, visited, reachable) state. -/
def gvm_relax (W H : ℕ) (terrain : Pos → Terrain) (occupied : Pos → Bool)
    (mr : ℕ) (curr_cost : ℕ) (st : List (Pos × ℕ) × List (Pos × ℕ) × List Pos)
    (np : Pos) : List (Pos × ℕ) × List (Pos × ℕ) × List Pos :=
  if !is_valid_coordinate W H np then st
  else
    let tc := move_cost (terrain np)
    let nc := curr_cost + tc
    if nc ≤ mr then
      if occupied np then st
      else
        match st.2.1.find? (fun e => e.1 == np) with
        | some e =>
          if e.2 ≤ nc then st
          else
            (st.1 ++ [(np, nc)], pos_cost_set st.2.1 np nc,
              if np ∈ st.2.2 then st.2.2 else st.2.2 ++ [np])
        | none =>
          (st.1 ++ [(np, nc)], pos_cost_set st.2.1 np nc,
            if np ∈ st.2.2 then st.2.2 else st.2.2 ++ [np])
    else st

/-- The while loop of get_valid_moves.  Returns none when the fuel runs out
with the queue nonempty, so a some result certifies that the loop ran to
completion exactly as the Python loop does. -/
def gvm_loop (W H : ℕ) (terrain : Pos → Terrain) (occupied : Pos → Bool)
    (mr : ℕ) : ℕ → List (Pos × ℕ) → List (Pos × ℕ) → List Pos →
    Option (List Pos)
  | _, [], _, reach => some reach
  | 0, _ :: _, _, _ => none
  | fuel + 1, (cp, cc) :: rest, visited, reach =>
    let st := neighbor_offsets.foldl
      (fun s off => gvm_relax W H terrain occupied mr cc s (cp.1 + off.1, cp.2 + off.2))
      (rest, visited, reach)
    gvm_loop W H terrain occupied mr fuel st.1 st.2.1 st.2.2

/-- Unit.get_valid_moves: a stunned unit's reachable set is just its own
cell; otherwise a cost-bounded BFS with the Charge status adding 2 to the
move range.  occupied p is true when a live unit stands on p (the mover
itself stands on its own cell). -/
def get_valid_moves (fuel W H : ℕ) (terrain : Pos → Terrain)
    (occupied : Pos → Bool) (u : GUnit) : Option (List Pos) :=
  if has_status u Status.stun then some [u.pos]
  else
    let mr := u.move_range + (if has_status u Status.charge then 2 else 0)
    gvm_loop W H terrain occupied mr fuel [(u.pos, 0)] [(u.pos, 0)] [u.pos]

/-- The 8-directional neighbour offsets used by the vision flood fill, in
source scan order. -/
def vision_offsets : List Pos :=
  [(0, 1), (0, -1), (1, 0), (-1, 0), (1, 1), (1, -1), (-1, 1), (-1, -1)]

/-- Write 2 (currently visible) into the visibility map at p.  The Python
code also mirrors is_visible/is_discovered onto the tiles for the human
player's display; that display bookkeeping is not part of the model. -/
def mark_vis (vis : Pos → ℕ) (p : Pos) : Pos → ℕ :=
  fun q => if q = p then 2 else vis q

/-- One neighbour examination of the per-unit vision flood fill, operating on
the (queue, visited_for_unit, visibility map) state. -/
def vis_relax (W H : ℕ) (terrain : Pos → Terrain) (vr : ℕ) (cost_spent : ℕ)
    (st : List (Pos × ℕ) × List Pos × (Pos → ℕ)) (np : Pos) :
    List (Pos × ℕ) × List Pos × (Pos → ℕ) :=
  if !is_valid_coordinate W H np then st
  else if np ∈ st.2.1 then st
  else
    let vc := vision_cost (terrain np)
    let nc := cost_spent + vc
    if nc ≤ vr then
      (st.1 ++ [(np, nc)], st.2.1 ++ [np], mark_vis st.2.2 np)
    else if cost_spent < vr ∧ vr < nc then
      if np ∈ st.2.1 then st
      else (st.1, st.2.1 ++ [np], mark_vis st.2.2 np)
    else st

/-- The while loop of the per-unit vision flood fill.  Exhausted fuel
returns the visibility accumulated so far; the monotonicity theorems hold
for every fuel, hence for the fuel the Python loop effectively uses. -/
def vis_loop (W H : ℕ) (terrain : Pos → Terrain) (vr : ℕ) :
    ℕ → List (Pos × ℕ) → List Pos → (Pos → ℕ) → (Pos → ℕ)
  | _, [], _, vis => vis
  | 0, _ :: _, _, vis => vis
  | fuel + 1, (cp, cs) :: rest, visited, vis =>
    if vr ≤ cs then vis_loop W H terrain vr fuel rest visited vis
    else
      let st := vision_offsets.foldl
        (fun s off => vis_relax W H terrain vr cs s (cp.1 + off.1, cp.2 + off.2))
        (rest, visited, vis)
      vis_loop W H terrain vr fuel st.1 st.2.1 st.2.2

/-- The per-unit body of step 2 of Player.update_visibility: mark the unit's
own tile visible (bounds-checked), then flood fill from it. -/
def unit_vision (fuel W H : ℕ) (terrain : Pos → Terrain) (vis : Pos → ℕ)
    (u : GUnit) : Pos → ℕ :=
  let vis1 :=
    if 0 ≤ u.pos.2 ∧ u.pos.2 < (H : ℤ) ∧ 0 ≤ u.pos.1 ∧ u.pos.1 < (W : ℤ) then
      mark_vis vis u.pos
    else vis
  vis_loop W H terrain u.vision_range fuel [(u.pos, 0)] [u.pos] vis1

/-- Step 1 of Player.update_visibility: every currently-visible grid cell is
downgraded to discovered (1); no cell is ever set back to 0. -/
def downgrade_vis (W H : ℕ) (vis : Pos → ℕ) : Pos → ℕ :=
  fun p => if is_valid_coordinate W H p && vis p == 2 then 1 else vis p

/-- Player.update_visibility on the visibility map: downgrade, then flood
fill from every live unit of the faction. -/
def update_visibility (fuel W H : ℕ) (terrain : Pos → Terrain)
    (world : List GUnit) (vis : Pos → ℕ) : Pos → ℕ :=
  (world.filter (fun u => u.is_alive)).foldl
    (fun v u => unit_vision fuel W H terrain v u)
    (downgrade_vis W H vis)

/-- The A* node: position, g/h/f costs, and the parent chain represented as
the accumulated path from the start (inclusive), which is exactly what the
Python path reconstruction walks at the end. -/
structure Node where
  position : Pos
  path : List Pos
  g_cost : ℕ
  h_cost : ℕ
  f_cost : ℕ
deriving DecidableEq

/-- Select a node with minimal f_cost (the first such) and return it with the
remaining list: the contract of the heapq pop, whose order ties are broken
arbitrarily but always at a minimal f_cost. -/
def select_min_f : Node → List Node → Node × List Node
  | best, [] => (best, [])
  | best, x :: xs =>
    if x.f_cost < best.f_cost then
      let r := select_min_f x xs
      (r.1, best :: r.2)
    else
      let r := select_min_f best xs
      (r.1, x :: r.2)

/-- Pop a minimal-f node from the open list, none when it is empty. -/
def pop_min_f : List Node → Option (Node × List Node)
  | [] => none
  | x :: xs => some (select_min_f x xs)

/-- The found_in_open scan of a_star_pathfinding: the first node with the
same position is replaced when the new g_cost is strictly better; when no
node has the position, the new node is appended (heappush). -/
def open_insert (nd : Node) : List Node → List Node
  | [] => [nd]
  | x :: xs =>
    if x.position == nd.position then
      if nd.g_cost < x.g_cost then nd :: xs else x :: xs
    else x :: open_insert nd xs

/-- One neighbour examination of a_star_pathfinding: bounds check, closed
check, occupancy check (goal excepted), terrain cost, then the open-list
insert/update. -/
def astar_relax (W H : ℕ) (terrain : Pos → Terrain) (occupied : Pos → Bool)
    (costFn : Terrain → Option ℕ) (goal : Pos) (cur : Node)
    (closed : List Pos) (openl : List Node) (np : Pos) : List Node :=
  if !is_valid_coordinate W H np then openl
  else if np ∈ closed then openl
  else if occupied np && np != goal then openl
  else
    match costFn (terrain np) with
    | none => openl
    | some c =>
      let g := cur.g_cost + c
      let h := distance np goal
      open_insert ⟨np, cur.path ++ [np], g, h, g + h⟩ openl

/-- The neighbour cell reached from the expanded node by offset off. -/
def off_cell (cur : Node) (off : Pos) : Pos :=
  (cur.position.1 + off.1, cur.position.2 + off.2)

/-- The full neighbour scan of one expansion: every offset's cell is run
through astar_relax against the open list. -/
def expand (W H : ℕ) (terrain : Pos → Terrain) (occupied : Pos → Bool)
    (costFn : Terrain → Option ℕ) (goal : Pos) (cur : Node)
    (closed : List Pos) (rest : List Node) : List Node :=
  neighbor_offsets.foldl
    (fun o off =>
      astar_relax W H terrain occupied costFn goal cur closed o
        (off_cell cur off))
    rest

/-- The main loop of a_star_pathfinding.  some (some p) is a found path,
some none is the Python None (open list exhausted), none is fuel
exhaustion, which the adequacy lemma rules out for fuel > W*H. -/
def astar_loop (W H : ℕ) (terrain : Pos → Terrain) (occupied : Pos → Bool)
    (costFn : Terrain → Option ℕ) (goal : Pos) :
    ℕ → List Node → List Pos → Option (Option (List Pos))
  | fuel, openl, closed =>
    match pop_min_f openl with
    | none => some none
    | some (cur, rest) =>
      if cur.position = goal then some (some cur.path)
      else
        match fuel with
        | 0 => none
        | fuel + 1 =>
          astar_loop W H terrain occupied costFn goal fuel
            (expand W H terrain occupied costFn goal cur closed rest)
            (closed ++ [cur.position])

/-- a_star_pathfinding with the fuel fixed at W*H + 1, one expansion per
closable position plus one. -/
def a_star_pathfinding (W H : ℕ) (terrain : Pos → Terrain)
    (occupied : Pos → Bool) (costFn : Terrain → Option ℕ)
    (start_pos end_pos : Pos) : Option (Option (List Pos)) :=
  let h0 := distance start_pos end_pos
  astar_loop W H terrain occupied costFn end_pos (W * H + 1)
    [⟨start_pos, [start_pos], 0, h0, 0 + h0⟩] []

/-- Specification-side: the 4-adjacency relation generated by the neighbour
offsets. -/
def Adj (p q : Pos) : Prop := (q.1 - p.1, q.2 - p.2) ∈ neighbor_offsets

instance (p q : Pos) : Decidable (Adj p q) :=
  inferInstanceAs (Decidable ((q.1 - p.1, q.2 - p.2) ∈ neighbor_offsets))

/-- Specification-side: a cell that an A* path may step onto: on the map,
passable for the unit, and unoccupied unless it is the goal cell. -/
def step_ok (W H : ℕ) (terrain : Pos → Terrain) (occupied : Pos → Bool)
    (costFn : Terrain → Option ℕ) (goal : Pos) (w : Pos) : Prop :=
  is_valid_coordinate W H w = true ∧ (costFn (terrain w)).isSome
    ∧ (occupied w = false ∨ w = goal)

instance (W H : ℕ) (terrain : Pos → Terrain) (occupied : Pos → Bool)
    (costFn : Terrain → Option ℕ) (goal w : Pos) :
    Decidable (step_ok W H terrain occupied costFn goal w) :=
  inferInstanceAs (Decidable (is_valid_coordinate W H w = true
    ∧ (costFn (terrain w)).isSome ∧ (occupied w = false ∨ w = goal)))

/-- Specification-side: a 4-connected path from start to an intermediate
cell z whose every step lands on a legal cell, where the occupancy
exception is the search goal (the start cell itself is exempt, as in the
search, which never re-enters it while the mover stands there). -/
def valid_path_to (W H : ℕ) (terrain : Pos → Terrain) (occupied : Pos → Bool)
    (costFn : Terrain → Option ℕ) (goal start z : Pos) (p : List Pos) : Prop :=
  p.head? = some start ∧ p.getLast? = some z ∧ List.Chain' Adj p
    ∧ ∀ w ∈ p.tail, step_ok W H terrain occupied costFn goal w

instance (W H : ℕ) (terrain : Pos → Terrain) (occupied : Pos → Bool)
    (costFn : Terrain → Option ℕ) (goal start z : Pos) (p : List Pos) :
    Decidable (valid_path_to W H terrain occupied costFn goal start z p) :=
  inferInstanceAs (Decidable (p.head? = some start ∧ p.getLast? = some z
    ∧ List.Chain' Adj p
    ∧ ∀ w ∈ p.tail, step_ok W H terrain occupied costFn goal w))

/-- Specification-side: a 4-connected path from start to goal whose every
step lands on a legal cell. -/
def valid_path (W H : ℕ) (terrain : Pos → Terrain) (occupied : Pos → Bool)
    (costFn : Terrain → Option ℕ) (start goal : Pos) (p : List Pos) : Prop :=
  valid_path_to W H terrain occupied costFn goal start goal p

instance (W H : ℕ) (terrain : Pos → Terrain) (occupied : Pos → Bool)
    (costFn : Terrain → Option ℕ) (start goal : Pos) (p : List Pos) :
    Decidable (valid_path W H terrain occupied costFn start goal p) :=
  inferInstanceAs
    (Decidable (valid_path_to W H terrain occupied costFn goal start goal p))

/-- Specification-side: the summed terrain cost of a path (the cost of each
entered cell; the start cell costs nothing). -/
def path_cost (terrain : Pos → Terrain) (costFn : Terrain → Option ℕ)
    (p : List Pos) : ℕ :=
  (p.tail.map (fun w => (costFn (terrain w)).getD 0)).sum

/-! Concrete scenario instances used by the evaluation theorems. -/

/-- A flat terrain-defense-bonus field (all Plains). -/
def tb_zero : Pos → ℕ := fun _ => 0

/-- An all-Plains terrain layout. -/
def plains_terrain : Pos → Terrain := fun _ => Terrain.plains

/-- An empty occupancy field. -/
def no_occupancy : Pos → Bool := fun _ => false

/-- The move-cost function shared by all units today: the terrain table's
move_cost (never impassable). -/
def unit_move_costs : Terrain → Option ℕ := fun t => some (move_cost t)

/-- Two fresh Warriors of opposing factions on adjacent Plains cells, with
the first one attacking the second, exactly as Game.handle_action resolves
an attack command. -/
def duel_world : List GUnit :=
  handle_attack 100 tb_zero
    [init_unit 1 0 UType.warrior (1, 2), init_unit 2 1 UType.warrior (2, 2)] 1 2

/-- A Warrior that was stunned for 1 turn during the opposing faction's turn
(as Bash applies it), with all three action flags spent. -/
def stunned_unit : GUnit :=
  { init_unit 1 0 UType.warrior (1, 1) with
    status_effects := [(Status.stun, 1)]
    has_moved := true
    has_attacked := true
    has_used_ability := true }

/-- A Warrior that has already used its attack action this turn and now
invokes Bash... -/
def c2_before : GUnit :=
  { init_unit 1 0 UType.warrior (0, 0) with has_attacked := true }

/-- ...on a live enemy two cells away (an out-of-range, hence invalid,
target for the range-1 Bash). -/
def c2_target : GUnit := init_unit 2 1 UType.warrior (2, 0)

/-- The rejected Bash invocation of the C2 scenario. -/
def c2_result : List GUnit × List Bool × Bool :=
  use_ability 50 tb_zero 12 10 [] [c2_before, c2_target] 1 (ATarget.unitT 2)

/-- A Warrior with move range 3 standing at (5,5) of the all-Plains 12x10
grid; the occupancy field of a world in which it is the only unit. -/
def c4_mover : GUnit := init_unit 1 0 UType.warrior (5, 5)

/-- Occupancy with only the mover itself on the board. -/
def c4_occ_self : Pos → Bool := fun p => p == ((5 : ℤ), (5 : ℤ))

/-- Occupancy with the mover and one other live unit at (6,5). -/
def c4_occ_blocker : Pos → Bool :=
  fun p => p == ((5 : ℤ), (5 : ℤ)) || p == ((6 : ℤ), (5 : ℤ))

/-- All cells of the 12x10 grid, for finite quantification. -/
def grid_cells (W H : ℕ) : List Pos :=
  (List.range W).flatMap (fun x => (List.range H).map (fun y => ((x : ℤ), (y : ℤ))))

/-- A lone Warrior on a 1x1 grid, for the C7 witness. -/
def c7w_unit : GUnit := init_unit 1 0 UType.warrior (0, 0)

/-- Occupancy of the 1x1 world: only the mover's own cell. -/
def c7w_occ : Pos → Bool := fun p => p == ((0 : ℤ), (0 : ℤ))

/-- A fresh Warrior ally hit by its own Mage's Fireball, for the C10
witness. -/
def c10_d : GUnit := init_unit 2 0 UType.warrior (0, 1)

/-- The Mage caster of the same faction, its attack flag already raised by
use_ability, for the C10 witness. -/

def c10_a : GUnit :=
  { init_unit 1 0 UType.mage (0, 0) with has_attacked := true }

/-- The node astar_relax builds for neighbour np of the expanded node. -/
def relax_node (costFn : Terrain → Option ℕ) (terrain : Pos → Terrain)
    (goal : Pos) (cur : Node) (np : Pos) : Node :=
  ⟨np, cur.path ++ [np], cur.g_cost + (costFn (terrain np)).getD 0,
    distance np goal,
    cur.g_cost + (costFn (terrain np)).getD 0 + distance np goal⟩

/-- An occupancy field with a single live non-mover unit standing on the
cell (2, 0). -/
def c5_occ : Pos → Bool := fun p => p == ((2 : ℤ), (0 : ℤ))

section AStarInvariantDefs

variable (W H : ℕ) (terrain : Pos → Terrain) (occupied : Pos → Bool)
variable (costFn : Terrain → Option ℕ) (start goal : Pos)

/-- Wellformedness of an open-list node: its path is a legal path from the
start to its position, its costs are the path cost, the Manhattan heuristic
and their sum, and its position is enterable (or is the start itself). -/
def node_wf (nd : Node) : Prop :=
  valid_path_to W H terrain occupied costFn goal start nd.position nd.path
    ∧ nd.g_cost = path_cost terrain costFn nd.path
    ∧ nd.h_cost = distance nd.position goal
    ∧ nd.f_cost = nd.g_cost + nd.h_cost
    ∧ (nd.position = start ∨ step_ok W H terrain occupied costFn goal nd.position)

/-- The loop invariant of a_star_pathfinding that needs no assumption on the
cost function: open nodes are wellformed and unique per position, open and
closed are disjoint, the goal is never closed, closed positions are on the
map, and every legal neighbour of a closed position is closed or open. -/
structure AInv (openl : List Node) (closed : List Pos) : Prop where
  wf : ∀ nd ∈ openl, node_wf W H terrain occupied costFn start goal nd
  nodup_open : (openl.map Node.position).Nodup
  disj : ∀ nd ∈ openl, nd.position ∉ closed
  goal_free : goal ∉ closed
  nodup_closed : closed.Nodup
  dom_closed : ∀ z ∈ closed,
    z = start ∨ step_ok W H terrain occupied costFn goal z
  start_mem : start ∉ closed → ∃ nd ∈ openl, nd.position = start
  edge : ∀ z ∈ closed, ∀ w, Adj z w
    → step_ok W H terrain occupied costFn goal w → w ∉ closed
    → ∃ nd ∈ openl, nd.position = w

/-- The cost part of the loop invariant: an open node sits at the start
with cost 0 while the start is unexpanded, and every closed position has a
ghost distance that bounds every legal path to it from below and that the
open successors' g-costs respect. -/
structure AGhost (openl : List Node) (closed : List Pos) : Prop where
  start0 : start ∉ closed → ∃ nd ∈ openl, nd.position = start ∧ nd.g_cost = 0
  ghost : ∀ z ∈ closed, ∃ gz : ℕ,
    (∀ p, valid_path_to W H terrain occupied costFn goal start z p
      → gz ≤ path_cost terrain costFn p)
      ∧ ∀ w, Adj z w → step_ok W H terrain occupied costFn goal w
          → w ∉ closed
          → ∃ nd ∈ openl, nd.position = w
              ∧ nd.g_cost ≤ gz + (costFn (terrain w)).getD 0

/-- The on-map cells as a finite set, for counting expansions. -/
def valid_cells : Finset Pos :=
  Finset.Ico (0 : ℤ) (W : ℤ) ×ˢ Finset.Ico (0 : ℤ) (H : ℤ)

end AStarInvariantDefs

/-! Theorems. -/

set_option maxRecDepth 4000

/-- Claim C8: for all non-negative attack power, defense, active defense
bonuses (Shield Wall / Evade) and terrain bonus, the applied damage computed
by take_damage equals max(1, attackPower - (targetDefense +
activeDefenseBonuses + terrainDefenseBonus)) and is never zero or
negative. -/
theorem claim_C8_damage_formula (tb : Pos → ℕ) (u : GUnit) (damage : ℤ)
    (_hdmg : 0 ≤ damage) (_hdef : 0 ≤ u.defense) :
    actual_damage tb u damage
        = max 1 (damage
            - (u.defense
              + ((if u.ability_name = some Ability.shield_wall
                      ∧ 0 < u.ability_active_timer then 3 else 0)
                  + (if has_status u Status.evade then 2 else 0))
              + (tb u.pos : ℤ)))
      ∧ 1 ≤ actual_damage tb u damage ∧ actual_damage tb u damage ≠ 0 := by
  unfold actual_damage total_defense effective_defense
  refine ⟨by congr 1; ring, le_max_left 1 _, ?_⟩
  have h1 : (1 : ℤ) ≤ max 1 (damage - (u.defense
      + (if u.ability_name = some Ability.shield_wall
            ∧ 0 < u.ability_active_timer then 3 else 0)
      + (if has_status u Status.evade then 2 else 0) + (tb u.pos : ℤ))) :=
    le_max_left 1 _
  omega

/-- Witness for C8 at a concrete unit and damage value. -/
theorem claim_C8_damage_formula_witness :
    (0 : ℤ) ≤ 6 ∧ (0 : ℤ) ≤ (init_unit 1 0 UType.warrior (0, 0)).defense
      ∧ 1 ≤ actual_damage tb_zero (init_unit 1 0 UType.warrior (0, 0)) 6 :=
  ⟨by decide, by decide,
    (claim_C8_damage_formula tb_zero (init_unit 1 0 UType.warrior (0, 0)) 6
      (by decide) (by decide)).2.1⟩

/-- Claim C1 (code bug): one attack command between two fresh adjacent
Warriors does not stop after a single counter-attack; because has_attacked
is set only after the recursive take_damage call returns, retaliations
recurse until the defender dies.  The attacker ends at 1 hp after eight
return strikes (a single retaliation would leave it at 25 - 3 = 22) and the
defender is dead from a single attack command. -/
theorem claim_C1_retaliation_duel :
    (find_unit duel_world 1).map (fun u => (u.hp, u.is_alive, u.xp, u.has_attacked))
        = some (1, true, 10, true)
      ∧ (find_unit duel_world 2).map (fun u => (u.hp, u.is_alive))
        = some (0, false)
      ∧ (1 : ℤ) ≠ 25 - 3 := by
  refine ⟨?_, ?_, by decide⟩ <;> rfl

/-- Claim C3 (code bug): a unit stunned for 1 turn during the opposing
faction's turn has the stun expire inside tick_status_effects, before
reset_turn runs, so its action flags are reset after all and it can move,
attack and use an ability on its own next turn. -/
theorem claim_C3_stun_expires_before_reset :
    (find_unit (start_turn_unit_loop 50 tb_zero [stunned_unit]) 1).map
        (fun u => (u.has_moved, u.has_attacked, u.has_used_ability,
          has_status u Status.stun))
      = some (false, false, false, false) := by
  rfl

/-- Claim C2 counterexample: a Warrior that has already attacked this turn
invokes Bash on a non-adjacent enemy; the invocation is rejected, yet its
previously set has_attacked flag is cleared instead of being left set. -/
theorem claim_C2_counterexample :
    c2_result.2.2 = false
      ∧ c2_before.has_attacked = true
      ∧ (find_unit c2_result.1 1).map GUnit.has_attacked = some false := by
  refine ⟨rfl, rfl, rfl⟩

/-- Claim C4 counterexample: on the all-Plains 12x10 grid the move-range-3
reachable set from (5,5) has 25 cells, not the 13 the claim states (a
radius-3 Manhattan diamond has 25 cells); moreover with one other live unit
at (6,5) the unoccupied diamond cell (7,5) drops out of the computed set,
so the set is not diamond-minus-occupied either. -/
theorem claim_C4_counterexample :
    (get_valid_moves 300 12 10 plains_terrain c4_occ_self c4_mover).map
        List.length = some 25
      ∧ (25 : ℕ) ≠ 13
      ∧ (get_valid_moves 300 12 10 plains_terrain c4_occ_blocker c4_mover).map
          (fun l => decide (((7 : ℤ), (5 : ℤ)) ∈ l)) = some false
      ∧ distance ((7 : ℤ), (5 : ℤ)) ((5 : ℤ), (5 : ℤ)) ≤ 3
      ∧ c4_occ_blocker ((7 : ℤ), (5 : ℤ)) = false := by
  exact ⟨rfl, by decide, rfl, by decide, rfl⟩

/-- Claim C4 amended: on entirely Plains terrain the reachable set of a
move-range-3 unit with no other live unit on the board is exactly the cells
of the grid at Manhattan distance at most 3 from its position: the 25-cell
diamond.  (Cells occupied by other live units are excluded when present,
but cells whose every within-budget path is blocked drop out as well, as
the counterexample shows.) -/
theorem claim_C4_amended :
    ∃ r, get_valid_moves 300 12 10 plains_terrain c4_occ_self c4_mover = some r
      ∧ r.length = 25
      ∧ (∀ p ∈ r, p ∈ grid_cells 12 10 ∧ distance p ((5 : ℤ), (5 : ℤ)) ≤ 3)
      ∧ (∀ p ∈ grid_cells 12 10, distance p ((5 : ℤ), (5 : ℤ)) ≤ 3 → p ∈ r) := by
  refine ⟨(get_valid_moves 300 12 10 plains_terrain c4_occ_self c4_mover).getD [],
    by decide, by decide, by decide, by decide⟩

/-- gvm_relax either leaves the reachable accumulator unchanged or appends
the examined unoccupied cell. -/
theorem gvm_relax_reach_cases (W H : ℕ) (terrain : Pos → Terrain)
    (occupied : Pos → Bool) (mr cc : ℕ)
    (st : List (Pos × ℕ) × List (Pos × ℕ) × List Pos) (np : Pos) :
    (gvm_relax W H terrain occupied mr cc st np).2.2 = st.2.2
      ∨ (occupied np = false
          ∧ (gvm_relax W H terrain occupied mr cc st np).2.2 = st.2.2 ++ [np]) := by
  unfold gvm_relax
  rcases hfind : st.2.1.find? (fun e => e.1 == np) with _ | e <;>
    simp only [hfind] <;> split_ifs <;>
      first
        | exact Or.inl rfl
        | exact Or.inr ⟨by simp_all, rfl⟩

/-- gvm_relax never removes a cell from the reachable accumulator. -/
theorem gvm_relax_reach_mono (W H : ℕ) (terrain : Pos → Terrain)
    (occupied : Pos → Bool) (mr cc : ℕ)
    (st : List (Pos × ℕ) × List (Pos × ℕ) × List Pos) (np p : Pos)
    (hp : p ∈ st.2.2) : p ∈ (gvm_relax W H terrain occupied mr cc st np).2.2 := by
  rcases gvm_relax_reach_cases W H terrain occupied mr cc st np with h | ⟨_, h⟩
  · rw [h]; exact hp
  · rw [h]; exact List.mem_append_left _ hp

/-- A cell that gvm_relax adds to the reachable accumulator is unoccupied. -/
theorem gvm_relax_reach_new (W H : ℕ) (terrain : Pos → Terrain)
    (occupied : Pos → Bool) (mr cc : ℕ)
    (st : List (Pos × ℕ) × List (Pos × ℕ) × List Pos) (np p : Pos)
    (hp : p ∈ (gvm_relax W H terrain occupied mr cc st np).2.2) :
    p ∈ st.2.2 ∨ occupied p = false := by
  rcases gvm_relax_reach_cases W H terrain occupied mr cc st np with h | ⟨hocc, h⟩
  · rw [h] at hp; exact Or.inl hp
  · rw [h] at hp
    rcases List.mem_append.mp hp with h2 | h2
    · exact Or.inl h2
    · simp only [List.mem_singleton] at h2
      subst h2
      exact Or.inr hocc

/-- The neighbour fold of one BFS iteration keeps both reach invariants. -/
theorem gvm_fold_reach (W H : ℕ) (terrain : Pos → Terrain)
    (occupied : Pos → Bool) (mr cc : ℕ) (f : Pos → Pos) (l : List Pos) :
    ∀ st : List (Pos × ℕ) × List (Pos × ℕ) × List Pos,
      (∀ p ∈ st.2.2,
          p ∈ (l.foldl (fun s off => gvm_relax W H terrain occupied mr cc s (f off)) st).2.2)
        ∧ ∀ p ∈ (l.foldl (fun s off => gvm_relax W H terrain occupied mr cc s (f off)) st).2.2,
            p ∈ st.2.2 ∨ occupied p = false := by
  induction l with
  | nil => exact fun st => ⟨fun p hp => hp, fun p hp => Or.inl hp⟩
  | cons off rest ih =>
    intro st
    refine ⟨fun p hp => ?_, fun p hp => ?_⟩
    · exact (ih _).1 p (gvm_relax_reach_mono W H terrain occupied mr cc st (f off) p hp)
    · rcases (ih _).2 p hp with h | h
      · exact gvm_relax_reach_new W H terrain occupied mr cc st (f off) p h
      · exact Or.inr h

/-- Soundness of the get_valid_moves loop: a completed run only grows the
reachable accumulator, and every cell it adds is unoccupied. -/
theorem gvm_loop_sound (W H : ℕ) (terrain : Pos → Terrain)
    (occupied : Pos → Bool) (mr : ℕ) :
    ∀ (fuel : ℕ) (q : List (Pos × ℕ)) (visited : List (Pos × ℕ))
      (reach r : List Pos),
      gvm_loop W H terrain occupied mr fuel q visited reach = some r →
        (∀ p ∈ reach, p ∈ r) ∧ ∀ p ∈ r, p ∈ reach ∨ occupied p = false := by
  intro fuel
  induction fuel with
  | zero =>
    intro q visited reach r h
    match q with
    | [] =>
      simp only [gvm_loop, Option.some.injEq] at h
      subst h
      exact ⟨fun p hp => hp, fun p hp => Or.inl hp⟩
    | e :: rest => exact absurd h (by simp [gvm_loop])
  | succ fuel ih =>
    intro q visited reach r h
    match q with
    | [] =>
      simp only [gvm_loop, Option.some.injEq] at h
      subst h
      exact ⟨fun p hp => hp, fun p hp => Or.inl hp⟩
    | (cp, cc) :: rest =>
      simp only [gvm_loop] at h
      have hfold := gvm_fold_reach W H terrain occupied mr cc
        (fun off => (cp.1 + off.1, cp.2 + off.2)) neighbor_offsets
        (rest, visited, reach)
      have hrec := ih _ _ _ _ h
      refine ⟨fun p hp => hrec.1 p (hfold.1 p hp), fun p hp => ?_⟩
      rcases hrec.2 p hp with h2 | h2
      · exact hfold.2 p h2
      · exact Or.inr h2

/-- Claim C7: whenever get_valid_moves completes, the reachable set contains
the unit's own cell, any occupied cell it contains is the unit's own cell
(so it never contains a cell occupied by another live unit), and for a
stunned unit it is exactly the singleton of its own cell.  occupied p is
true when a live unit stands on p; the mover itself stands on u.pos. -/
theorem claim_C7_reachable_set (fuel W H : ℕ) (terrain : Pos → Terrain)
    (occupied : Pos → Bool) (u : GUnit) (r : List Pos)
    (h : get_valid_moves fuel W H terrain occupied u = some r) :
    u.pos ∈ r ∧ (∀ p ∈ r, occupied p = true → p = u.pos)
      ∧ (has_status u Status.stun = true → r = [u.pos]) := by
  unfold get_valid_moves at h
  by_cases hstun : has_status u Status.stun
  · simp only [hstun, if_true, Option.some.injEq] at h
    subst h
    exact ⟨List.mem_singleton_self _,
      fun p hp _ => List.mem_singleton.mp hp,
      fun _ => rfl⟩
  · simp only [hstun, if_false] at h
    have hs := gvm_loop_sound W H terrain occupied _ fuel _ _ _ _ h
    refine ⟨hs.1 u.pos (List.mem_singleton_self _), fun p hp hocc => ?_, ?_⟩
    · rcases hs.2 p hp with h2 | h2
      · exact List.mem_singleton.mp h2
      · rw [h2] at hocc
        exact absurd hocc (by simp)
    · intro hc
      exact absurd hc hstun

/-- Witness for C7: a lone Warrior on a 1x1 grid reaches exactly its own
cell. -/
theorem claim_C7_reachable_set_witness :
    ((0 : ℤ), (0 : ℤ)) ∈ [((0 : ℤ), (0 : ℤ))]
      ∧ (∀ p ∈ [((0 : ℤ), (0 : ℤ))], c7w_occ p = true → p = c7w_unit.pos)
      ∧ (has_status c7w_unit Status.stun = true
          → [((0 : ℤ), (0 : ℤ))] = [c7w_unit.pos]) := by
  have h := claim_C7_reachable_set 2 1 1 plains_terrain c7w_occ c7w_unit
    [((0 : ℤ), (0 : ℤ))] (by decide)
  exact ⟨by decide, h.2.1, h.2.2⟩

/-- vis_relax leaves each cell's visibility unchanged or sets it to 2. -/
theorem vis_relax_pointwise (W H : ℕ) (terrain : Pos → Terrain) (vr cs : ℕ)
    (st : List (Pos × ℕ) × List Pos × (Pos → ℕ)) (np p : Pos) :
    (vis_relax W H terrain vr cs st np).2.2 p = st.2.2 p
      ∨ (vis_relax W H terrain vr cs st np).2.2 p = 2 := by
  unfold vis_relax
  by_cases hp : p = np <;>
    by_cases hle : cs + vision_cost (terrain np) ≤ vr <;>
    by_cases hmid : cs < vr ∧ vr < cs + vision_cost (terrain np) <;>
    split_ifs <;> simp [mark_vis, hp, hle, hmid]

/-- The neighbour fold of one vision-BFS iteration is pointwise monotone
toward 2. -/
theorem vis_fold_pointwise (W H : ℕ) (terrain : Pos → Terrain) (vr cs : ℕ)
    (f : Pos → Pos) (l : List Pos) :
    ∀ (st : List (Pos × ℕ) × List Pos × (Pos → ℕ)) (p : Pos),
      (l.foldl (fun s off => vis_relax W H terrain vr cs s (f off)) st).2.2 p
          = st.2.2 p
        ∨ (l.foldl (fun s off => vis_relax W H terrain vr cs s (f off)) st).2.2 p
          = 2 := by
  induction l with
  | nil => exact fun st p => Or.inl rfl
  | cons off rest ih =>
    intro st p
    simp only [List.foldl_cons]
    rcases ih (vis_relax W H terrain vr cs st (f off)) p with h | h
    · rw [h]
      exact vis_relax_pointwise W H terrain vr cs st (f off) p
    · exact Or.inr h

/-- The vision-BFS loop is pointwise monotone toward 2. -/
theorem vis_loop_pointwise (W H : ℕ) (terrain : Pos → Terrain) (vr : ℕ) :
    ∀ (fuel : ℕ) (q : List (Pos × ℕ)) (visited : List Pos) (vis : Pos → ℕ)
      (p : Pos),
      vis_loop W H terrain vr fuel q visited vis p = vis p
        ∨ vis_loop W H terrain vr fuel q visited vis p = 2 := by
  intro fuel
  induction fuel with
  | zero =>
    intro q visited vis p
    match q with
    | [] => exact Or.inl rfl
    | e :: rest => exact Or.inl rfl
  | succ fuel ih =>
    intro q visited vis p
    match q with
    | [] => exact Or.inl rfl
    | (cp, cs) :: rest =>
      simp only [vis_loop]
      split_ifs with hle
      · exact ih rest visited vis p
      · rcases ih _ _ _ p with h | h
        · rw [h]
          exact vis_fold_pointwise W H terrain vr cs
            (fun off => (cp.1 + off.1, cp.2 + off.2)) vision_offsets
            (rest, visited, vis) p
        · exact Or.inr h

/-- A unit's vision pass is pointwise monotone toward 2. -/
theorem unit_vision_pointwise (fuel W H : ℕ) (terrain : Pos → Terrain)
    (vis : Pos → ℕ) (u : GUnit) (p : Pos) :
    unit_vision fuel W H terrain vis u p = vis p
      ∨ unit_vision fuel W H terrain vis u p = 2 := by
  unfold unit_vision
  rcases vis_loop_pointwise W H terrain u.vision_range fuel [(u.pos, 0)] [u.pos]
      (if 0 ≤ u.pos.2 ∧ u.pos.2 < (H : ℤ) ∧ 0 ≤ u.pos.1 ∧ u.pos.1 < (W : ℤ) then
        mark_vis vis u.pos
      else vis) p with h | h
  · rw [h]
    split_ifs with hb
    · by_cases hp : p = u.pos
      · exact Or.inr (by simp [mark_vis, hp])
      · exact Or.inl (by simp [mark_vis, hp])
    · exact Or.inl rfl
  · exact Or.inr h

/-- Folding the per-unit vision passes is pointwise monotone toward 2. -/
theorem units_fold_pointwise (fuel W H : ℕ) (terrain : Pos → Terrain)
    (units : List GUnit) :
    ∀ (v : Pos → ℕ) (p : Pos),
      (units.foldl (fun v u => unit_vision fuel W H terrain v u) v) p = v p
        ∨ (units.foldl (fun v u => unit_vision fuel W H terrain v u) v) p = 2 := by
  induction units with
  | nil => exact fun v p => Or.inl rfl
  | cons u rest ih =>
    intro v p
    simp only [List.foldl_cons]
    rcases ih (unit_vision fuel W H terrain v u) p with h | h
    · rw [h]
      exact unit_vision_pointwise fuel W H terrain v u p
    · exact Or.inr h

/-- The whole recomputation is pointwise: each cell either keeps its
downgraded value or is set to currently-visible. -/
theorem update_visibility_pointwise (fuel W H : ℕ) (terrain : Pos → Terrain)
    (world : List GUnit) (vis : Pos → ℕ) (p : Pos) :
    update_visibility fuel W H terrain world vis p = downgrade_vis W H vis p
      ∨ update_visibility fuel W H terrain world vis p = 2 := by
  unfold update_visibility
  exact units_fold_pointwise fuel W H terrain _ (downgrade_vis W H vis) p

/-- Claim C9: per-faction visibility is monotone with respect to discovery:
a discovered cell (state 1 or 2) never reverts to unseen (0) under any
number of recomputations, and one recomputation takes a currently-visible
cell only to previously-seen or currently-visible. -/
theorem claim_C9_visibility_monotone (fuel W H : ℕ) (terrain : Pos → Terrain)
    (world : List GUnit) (vis : Pos → ℕ) (p : Pos) :
    (vis p ≠ 0 → update_visibility fuel W H terrain world vis p ≠ 0)
      ∧ (vis p = 2
          → update_visibility fuel W H terrain world vis p = 1
            ∨ update_visibility fuel W H terrain world vis p = 2)
      ∧ ∀ worlds : List (List GUnit), vis p ≠ 0
          → (worlds.foldl
              (fun v w => update_visibility fuel W H terrain w v) vis) p ≠ 0 := by
  have key : ∀ (v : Pos → ℕ), v p ≠ 0 → update_visibility fuel W H terrain world v p ≠ 0 := by
    intro v hv
    rcases update_visibility_pointwise fuel W H terrain world v p with h | h
    · rw [h]
      unfold downgrade_vis
      split_ifs with hd
      · simp
      · exact hv
    · rw [h]; simp
  refine ⟨key vis, ?_, ?_⟩
  · intro h2
    rcases update_visibility_pointwise fuel W H terrain world vis p with h | h
    · rw [h]
      unfold downgrade_vis
      rw [h2]
      split_ifs with hd
      · exact Or.inl rfl
      · exact Or.inr rfl
    · exact Or.inr h
  · intro worlds
    induction worlds generalizing vis with
    | nil => exact fun hv => hv
    | cons w rest ih =>
      intro hv
      simp only [List.foldl_cons]
      refine ih _ ?_
      rcases update_visibility_pointwise fuel W H terrain w vis p with h | h
      · rw [h]
        unfold downgrade_vis
        split_ifs with hd
        · simp
        · exact hv
      · rw [h]; simp

/-- Witness for C9 at a concrete map state. -/
theorem claim_C9_visibility_monotone_witness :
    ((fun _ : Pos => 1) ((0 : ℤ), (0 : ℤ)) ≠ 0
        → update_visibility 20 12 10 plains_terrain [c7w_unit] (fun _ => 1)
            ((0 : ℤ), (0 : ℤ)) ≠ 0)
      ∧ ((1 : ℕ) ≠ 0) :=
  ⟨(claim_C9_visibility_monotone 20 12 10 plains_terrain [c7w_unit]
      (fun _ => 1) ((0 : ℤ), (0 : ℤ))).1, by decide⟩

/-- find_unit after update_unit at the same id sees the updated unit, for
field-preserving updates. -/
theorem find_unit_update_self (world : List GUnit) (uid : ℕ) (f : GUnit → GUnit)
    (hf : ∀ u, (f u).id = u.id) :
    find_unit (update_unit world uid f) uid = (find_unit world uid).map f := by
  induction world with
  | nil => rfl
  | cons u rest ih =>
    simp only [find_unit, update_unit, List.map_cons] at *
    by_cases h : u.id = uid
    · rw [if_pos (by simpa using h)]
      rw [List.find?_cons_of_pos _ (by simp [hf u, h]),
        List.find?_cons_of_pos _ (by simp [h])]
      rfl
    · rw [if_neg (by simpa using h)]
      rw [List.find?_cons_of_neg _ (by simp [h]),
        List.find?_cons_of_neg _ (by simp [h])]
      exact ih

/-- find_unit at a different id is unaffected by update_unit. -/
theorem find_unit_update_ne (world : List GUnit) (uid uid' : ℕ)
    (f : GUnit → GUnit) (hf : ∀ u, (f u).id = u.id) (h : uid' ≠ uid) :
    find_unit (update_unit world uid f) uid' = find_unit world uid' := by
  induction world with
  | nil => rfl
  | cons u rest ih =>
    simp only [find_unit, update_unit, List.map_cons] at *
    by_cases hu : u.id = uid
    · rw [if_pos (by simpa using hu)]
      rw [List.find?_cons_of_neg _ (by simp [hf u, hu]; omega),
        List.find?_cons_of_neg _ (by simp [hu]; omega)]
      exact ih
    · rw [if_neg (by simpa using hu)]
      by_cases hu' : u.id = uid'
      · rw [List.find?_cons_of_pos _ (by simp [hu']),
          List.find?_cons_of_pos _ (by simp [hu'])]
      · rw [List.find?_cons_of_neg _ (by simp [hu']),
          List.find?_cons_of_neg _ (by simp [hu'])]
        exact ih

/-- Two successive mutations of the same object compose. -/
theorem update_update_same (world : List GUnit) (uid : ℕ) (f g : GUnit → GUnit)
    (hf : ∀ u, (f u).id = u.id) :
    update_unit (update_unit world uid f) uid g
      = update_unit world uid (fun u => g (f u)) := by
  unfold update_unit
  rw [List.map_map]
  apply List.map_congr_left
  intro u _
  by_cases h : u.id = uid
  · simp [Function.comp, h, hf u]
  · simp [Function.comp, h]

/-- What the failure epilogue leaves behind: cooldown 0, has_moved as it
was, the other two flags cleared, every other unit untouched. -/
theorem ability_fail_spec (world : List GUnit) (self_id : ℕ) (rolls : List Bool)
    (self : GUnit) (hfind : find_unit world self_id = some self) :
    (find_unit (ability_fail (update_unit world self_id flags_raise) self_id rolls).1
          self_id).map
        (fun u => (u.ability_cooldown_timer, u.has_moved, u.has_attacked,
          u.has_used_ability))
      = some (0, self.has_moved, false, false)
    ∧ ∀ uid', uid' ≠ self_id
        → find_unit (ability_fail (update_unit world self_id flags_raise) self_id rolls).1 uid'
          = find_unit world uid' := by
  have hf1 : ∀ u : GUnit, (flags_raise u).id = u.id := fun u => rfl
  constructor
  · show (find_unit (update_unit (update_unit world self_id flags_raise) self_id _) self_id).map _ = _
    rw [update_update_same _ _ _ _ hf1, find_unit_update_self]
    · rw [hfind]; rfl
    · exact fun u => rfl
  · intro uid' hne
    show find_unit (update_unit (update_unit world self_id flags_raise) self_id _) uid' = _
    rw [update_update_same _ _ _ _ hf1, find_unit_update_ne]
    · exact fun u => rfl
    · exact hne

/-- Claim C2 amended: a rejected ability invocation refunds the cooldown to
its pre-invocation value (necessarily 0) and leaves has_moved and all other
units untouched, but it clears has_attacked and has_used_ability to false
even when they were set before the invocation (rather than leaving them
exactly as they were). -/
theorem claim_C2_amended (fuel : ℕ) (tb : Pos → ℕ) (W H : ℕ) (rolls : List Bool)
    (world : List GUnit) (self_id : ℕ) (target : ATarget) (self : GUnit)
    (w' : List GUnit) (r' : List Bool)
    (hfind : find_unit world self_id = some self)
    (hcan : can_use_ability self = true)
    (hfail : use_ability fuel tb W H rolls world self_id target = (w', r', false)) :
    (find_unit w' self_id).map
        (fun u => (u.ability_cooldown_timer, u.has_moved, u.has_attacked,
          u.has_used_ability))
      = some (self.ability_cooldown_timer, self.has_moved, false, false)
    ∧ r' = rolls
    ∧ ∀ uid', uid' ≠ self_id → find_unit w' uid' = find_unit world uid' := by
  have hcd : self.ability_cooldown_timer = 0 := by
    unfold can_use_ability at hcan
    simp only [Bool.and_eq_true, beq_iff_eq] at hcan
    exact hcan.1.2
  obtain ⟨ab, hab⟩ := Option.isSome_iff_exists.mp (by
    unfold can_use_ability at hcan
    simp only [Bool.and_eq_true] at hcan
    exact hcan.1.1)
  unfold use_ability at hfail
  rw [hfind] at hfail
  simp only [hcan, Bool.not_true, Bool.false_eq_true, if_false, hab] at hfail
  have mainline :
      ability_fail (update_unit world self_id flags_raise) self_id rolls
          = (w', r', false)
        → (find_unit w' self_id).map
              (fun u => (u.ability_cooldown_timer, u.has_moved, u.has_attacked,
                u.has_used_ability))
            = some (self.ability_cooldown_timer, self.has_moved, false, false)
          ∧ r' = rolls
          ∧ ∀ uid', uid' ≠ self_id → find_unit w' uid' = find_unit world uid' := by
    intro hfl
    have hw := congrArg (fun t : List GUnit × List Bool × Bool => t.1) hfl
    have hr := congrArg (fun t : List GUnit × List Bool × Bool => t.2.1) hfl
    simp only at hw hr
    have spec := ability_fail_spec world self_id rolls self hfind
    rw [hcd]
    exact ⟨by rw [← hw]; exact spec.1, by rw [← hr]; rfl,
      fun uid' hne => by rw [← hw]; exact spec.2 uid' hne⟩
  cases ab <;> dsimp only [] at hfail <;>
    first
      | exact mainline hfail
      | ((repeat' split at hfail) <;>
          first
            | exact mainline hfail
            | simp at hfail)

/-- Witness for the amended C2 at the concrete rejected Bash invocation. -/
theorem claim_C2_amended_witness :
    find_unit [c2_before, c2_target] 1 = some c2_before
      ∧ (find_unit c2_result.1 1).map
          (fun u => (u.ability_cooldown_timer, u.has_moved, u.has_attacked,
            u.has_used_ability))
        = some (c2_before.ability_cooldown_timer, c2_before.has_moved, false, false) :=
  ⟨by rfl,
    (claim_C2_amended 50 tb_zero 12 10 [] [c2_before, c2_target] 1
      (ATarget.unitT 2) c2_before c2_result.1 c2_result.2.1 (by rfl) (by rfl)
      (by rfl)).1⟩

/-- level_up does not change a unit's id. -/
theorem level_up_id (u : GUnit) : (level_up u).id = u.id := by
  unfold level_up update_stats_for_level
  split_ifs <;> first | rfl | (dsimp only; split_ifs <;> rfl)

/-- The gain_xp while loop does not change a unit's id. -/
theorem gain_xp_loop_id : ∀ (f : ℕ) (u : GUnit), (gain_xp_loop f u).id = u.id := by
  intro f
  induction f with
  | zero => exact fun u => rfl
  | succ f ih =>
    intro u
    unfold gain_xp_loop
    split_ifs
    · rw [ih (level_up u), level_up_id]
    · rfl

/-- gain_xp does not change a unit's id. -/
theorem gain_xp_id (n : ℕ) (u : GUnit) : (gain_xp n u).id = u.id := by
  unfold gain_xp
  split_ifs
  · rfl
  · rw [gain_xp_loop_id]


/-- One surviving take_damage step whose retaliation condition holds: the
defender's hp drops, the attacker recursively takes the defender's attack,
then the defender's attack action is consumed. -/
theorem take_damage_survive_retaliate (fuel : ℕ) (tb : Pos → ℕ)
    (world : List GUnit) (self_id aid : ℕ) (dmg : ℤ) (self atk self1 : GUnit)
    (hfind : find_unit world self_id = some self)
    (halive : self.is_alive = true)
    (hsurv : 0 < self.hp - actual_damage tb self dmg)
    (hfa : find_unit
        (update_unit world self_id
          (fun u => { u with hp := self.hp - actual_damage tb self dmg })) aid
      = some atk)
    (hfs : find_unit
        (update_unit world self_id
          (fun u => { u with hp := self.hp - actual_damage tb self dmg })) self_id
      = some self1)
    (hcond : (atk.is_alive && can_retaliate self1
        && decide (distance self1.pos atk.pos ≤ self1.attack_range)) = true) :
    take_damage (fuel + 1) tb world self_id (some aid) dmg
      = update_unit
          (take_damage fuel tb
            (update_unit world self_id
              (fun u => { u with hp := self.hp - actual_damage tb self dmg }))
            aid (some self_id) self1.attack)
          self_id (fun u => { u with has_attacked := true }) := by
  rw [take_damage, hfind]
  simp only [halive, Bool.not_true, Bool.false_eq_true, if_false]
  rw [if_neg (by omega)]
  simp only [hfa, hfs, hcond, if_true]

/-- One surviving take_damage step whose retaliation condition fails: only
the defender's hp drops. -/
theorem take_damage_survive_pass (fuel : ℕ) (tb : Pos → ℕ)
    (world : List GUnit) (self_id aid : ℕ) (dmg : ℤ) (self atk self1 : GUnit)
    (hfind : find_unit world self_id = some self)
    (halive : self.is_alive = true)
    (hsurv : 0 < self.hp - actual_damage tb self dmg)
    (hfa : find_unit
        (update_unit world self_id
          (fun u => { u with hp := self.hp - actual_damage tb self dmg })) aid
      = some atk)
    (hfs : find_unit
        (update_unit world self_id
          (fun u => { u with hp := self.hp - actual_damage tb self dmg })) self_id
      = some self1)
    (hcond : (atk.is_alive && can_retaliate self1
        && decide (distance self1.pos atk.pos ≤ self1.attack_range)) = false) :
    take_damage (fuel + 1) tb world self_id (some aid) dmg
      = update_unit world self_id
          (fun u => { u with hp := self.hp - actual_damage tb self dmg }) := by
  rw [take_damage, hfind]
  simp only [halive, Bool.not_true, Bool.false_eq_true, if_false]
  rw [if_neg (by omega)]
  simp only [hfa, hfs, hcond, Bool.false_eq_true, if_false]

/-- One lethal take_damage step with a live attacker: the defender dies and
the attacker is granted the defender's xp value. -/
theorem take_damage_kill (fuel : ℕ) (tb : Pos → ℕ) (world : List GUnit)
    (self_id aid : ℕ) (dmg : ℤ) (self atk : GUnit)
    (hfind : find_unit world self_id = some self)
    (halive : self.is_alive = true)
    (hkill : self.hp - actual_damage tb self dmg ≤ 0)
    (hfa : find_unit
        (update_unit world self_id (fun u => { u with hp := 0, is_alive := false }))
        aid
      = some atk)
    (hatk : atk.is_alive = true) :
    take_damage (fuel + 1) tb world self_id (some aid) dmg
      = update_unit
          (update_unit world self_id (fun u => { u with hp := 0, is_alive := false }))
          aid (gain_xp self.xp_value) := by
  rw [take_damage, hfind]
  simp only [halive, Bool.not_true, Bool.false_eq_true, if_false]
  rw [if_pos (by omega)]
  simp only [hfa, hatk, if_true]

/-- Claim C10: retaliation does not check the attacker's faction.  If a unit
is damaged with a same-faction attacker recorded (as the Fireball area
ability records its caster while hitting units of both factions), survives,
can retaliate, and the friendly attacker is within its attack range, then
it counter-attacks its own ally with the standard damage formula; the
ally's already-spent attack action (set by use_ability before the Fireball
hits land) stops the chain there. -/
theorem claim_C10_friendly_retaliation (fuel : ℕ) (tb : Pos → ℕ) (d a : GUnit)
    (dmg : ℤ)
    (hids : d.id ≠ a.id)
    (_hfac : d.faction = a.faction)
    (hd_alive : d.is_alive = true)
    (hsurvive : 0 < d.hp - actual_damage tb d dmg)
    (ha_alive : a.is_alive = true)
    (hd_range : 1 ≤ d.attack_range)
    (hd_noatt : d.has_attacked = false)
    (hd_nostun : has_status d Status.stun = false)
    (hdist : distance d.pos a.pos ≤ d.attack_range)
    (ha_att : a.has_attacked = true) :
    (find_unit (take_damage (fuel + 2) tb [d, a] d.id (some a.id) dmg) a.id).map
        GUnit.hp
      = some (if a.hp - actual_damage tb a d.attack ≤ 0 then 0
          else a.hp - actual_damage tb a d.attack)
    ∧ (find_unit (take_damage (fuel + 2) tb [d, a] d.id (some a.id) dmg) d.id).map
        GUnit.has_attacked = some true := by
  have hane : (a.id == d.id) = false := by simp [Ne.symm hids]
  have hdane : (d.id == a.id) = false := by simp [hids]
  have hfindD : ∀ x y : GUnit, x.id = d.id → find_unit [x, y] d.id = some x := by
    intro x y hx
    simp [find_unit, hx]
  have hfindA : ∀ x y : GUnit, x.id = d.id → y.id = a.id
      → find_unit [x, y] a.id = some y := by
    intro x y hx hy
    simp [find_unit, hx, hy, hdane]
  have hupdL : ∀ (x y : GUnit) (f : GUnit → GUnit), x.id = d.id → y.id = a.id
      → update_unit [x, y] d.id f = [f x, y] := by
    intro x y f hx hy
    unfold update_unit
    simp only [List.map_cons, List.map_nil]
    rw [if_pos (by simp [hx]), if_neg (by simp [hy, Ne.symm hids])]
  have hupdR : ∀ (x y : GUnit) (f : GUnit → GUnit), x.id = d.id → y.id = a.id
      → update_unit [x, y] a.id f = [x, f y] := by
    intro x y f hx hy
    unfold update_unit
    simp only [List.map_cons, List.map_nil]
    rw [if_neg (by simp [hx, hids]), if_pos (by simp [hy])]
  have hfind0 : find_unit [d, a] d.id = some d := hfindD d a rfl
  have hupd1 := hupdL d a (fun u => { u with hp := d.hp - actual_damage tb d dmg }) rfl rfl
  have hret1 : can_retaliate { d with hp := d.hp - actual_damage tb d dmg } = true := by
    have h1 : can_retaliate { d with hp := d.hp - actual_damage tb d dmg }
        = can_retaliate d := rfl
    rw [h1]
    simp [can_retaliate, hd_alive, hd_range, hd_noatt, hd_nostun]
  have step1 := take_damage_survive_retaliate (fuel + 1) tb [d, a] d.id a.id dmg
    d a { d with hp := d.hp - actual_damage tb d dmg } hfind0 hd_alive hsurvive
    (by rw [hupd1]; exact hfindA _ a rfl rfl)
    (by rw [hupd1]; exact hfindD _ a rfl)
    (by simp [ha_alive, hret1, hdist])
  rw [step1, hupd1]
  have hproj : ({ d with hp := d.hp - actual_damage tb d dmg } : GUnit).attack
      = d.attack := rfl
  rw [hproj]
  by_cases hka : a.hp - actual_damage tb a d.attack ≤ 0
  · have hupd2 := hupdR { d with hp := d.hp - actual_damage tb d dmg } a
      (fun u => { u with hp := 0, is_alive := false }) rfl rfl
    have step2 := take_damage_kill fuel tb
      [{ d with hp := d.hp - actual_damage tb d dmg }, a] a.id d.id d.attack a
      { d with hp := d.hp - actual_damage tb d dmg }
      (hfindA _ a rfl rfl) ha_alive (by exact hka)
      (by rw [hupd2]; exact hfindD _ _ rfl) (by exact hd_alive)
    rw [step2, hupd2]
    rw [hupdL { d with hp := d.hp - actual_damage tb d dmg } { a with hp := 0, is_alive := false } (gain_xp a.xp_value) rfl rfl]
    rw [hupdL (gain_xp a.xp_value { d with hp := d.hp - actual_damage tb d dmg }) { a with hp := 0, is_alive := false } _ (by rw [gain_xp_id]) rfl]
    refine ⟨?_, ?_⟩
    · simp [find_unit, gain_xp_id, hdane, hka]
    · simp [find_unit, gain_xp_id]
  · have hupd2 := hupdR { d with hp := d.hp - actual_damage tb d dmg } a
      (fun u => { u with hp := a.hp - actual_damage tb a d.attack }) rfl rfl
    have hnoret : can_retaliate { a with hp := a.hp - actual_damage tb a d.attack }
        = false := by
      simp [can_retaliate, ha_att]
    have step2 := take_damage_survive_pass fuel tb
      [{ d with hp := d.hp - actual_damage tb d dmg }, a] a.id d.id d.attack a
      { d with hp := d.hp - actual_damage tb d dmg }
      { a with hp := a.hp - actual_damage tb a d.attack }
      (hfindA _ a rfl rfl) ha_alive (by omega)
      (by rw [hupd2]; exact hfindD _ _ rfl)
      (by rw [hupd2]; exact hfindA _ _ rfl rfl)
      (by simp [hnoret])
    rw [step2, hupd2]
    rw [hupdL { d with hp := d.hp - actual_damage tb d dmg } { a with hp := a.hp - actual_damage tb a d.attack } _ rfl rfl]
    refine ⟨?_, ?_⟩
    · simp [find_unit, hdane, hka]
    · simp [find_unit]


/-- Witness for C10: the friendly Warrior hit by its own Mage's Fireball
(damage 7) strikes the Mage back for max(1, 6 - 0) = 6. -/
theorem claim_C10_friendly_retaliation_witness :
    c10_d.faction = c10_a.faction
      ∧ (find_unit (take_damage (10 + 2) tb_zero [c10_d, c10_a] c10_d.id
            (some c10_a.id) 7) c10_a.id).map GUnit.hp
        = some (if c10_a.hp - actual_damage tb_zero c10_a c10_d.attack ≤ 0 then 0
            else c10_a.hp - actual_damage tb_zero c10_a c10_d.attack)
      ∧ (find_unit (take_damage (10 + 2) tb_zero [c10_d, c10_a] c10_d.id
            (some c10_a.id) 7) c10_d.id).map GUnit.has_attacked = some true := by
  have h := claim_C10_friendly_retaliation 10 tb_zero c10_d c10_a 7
    (by decide) (by decide) (by decide) (by decide) (by decide) (by decide)
    (by decide) (by decide) (by decide) (by decide)
  exact ⟨by decide, h.1, h.2⟩

theorem astar_loop_eq (W H : ℕ) (terrain : Pos → Terrain)
    (occupied : Pos → Bool) (costFn : Terrain → Option ℕ) (goal : Pos)
    (fuel : ℕ) (openl : List Node) (closed : List Pos) :
    astar_loop W H terrain occupied costFn goal fuel openl closed
      = match pop_min_f openl with
        | none => some none
        | some (cur, rest) =>
          if cur.position = goal then some (some cur.path)
          else
            match fuel with
            | 0 => none
            | fuel + 1 =>
              astar_loop W H terrain occupied costFn goal fuel
                (expand W H terrain occupied costFn goal cur closed rest)
                (closed ++ [cur.position]) := by
  rw [astar_loop.eq_1]

theorem astar_loop_none (W H : ℕ) (terrain : Pos → Terrain)
    (occupied : Pos → Bool) (costFn : Terrain → Option ℕ) (goal : Pos)
    (fuel : ℕ) (openl : List Node) (closed : List Pos)
    (hpop : pop_min_f openl = none) :
    astar_loop W H terrain occupied costFn goal fuel openl closed
      = some none := by
  rw [astar_loop_eq, hpop]

theorem astar_loop_found (W H : ℕ) (terrain : Pos → Terrain)
    (occupied : Pos → Bool) (costFn : Terrain → Option ℕ) (goal : Pos)
    (fuel : ℕ) (openl : List Node) (closed : List Pos) (cur : Node)
    (rest : List Node) (hpop : pop_min_f openl = some (cur, rest))
    (hg : cur.position = goal) :
    astar_loop W H terrain occupied costFn goal fuel openl closed
      = some (some cur.path) := by
  rw [astar_loop_eq, hpop]
  simp only [if_pos hg]

theorem astar_loop_stop (W H : ℕ) (terrain : Pos → Terrain)
    (occupied : Pos → Bool) (costFn : Terrain → Option ℕ) (goal : Pos)
    (openl : List Node) (closed : List Pos) (cur : Node)
    (rest : List Node) (hpop : pop_min_f openl = some (cur, rest))
    (hg : ¬ cur.position = goal) :
    astar_loop W H terrain occupied costFn goal 0 openl closed = none := by
  rw [astar_loop_eq, hpop]
  simp only [if_neg hg]

theorem astar_loop_step (W H : ℕ) (terrain : Pos → Terrain)
    (occupied : Pos → Bool) (costFn : Terrain → Option ℕ) (goal : Pos)
    (n : ℕ) (openl : List Node) (closed : List Pos) (cur : Node)
    (rest : List Node) (hpop : pop_min_f openl = some (cur, rest))
    (hg : ¬ cur.position = goal) :
    astar_loop W H terrain occupied costFn goal (n + 1) openl closed
      = astar_loop W H terrain occupied costFn goal n
          (expand W H terrain occupied costFn goal cur closed rest)
          (closed ++ [cur.position]) := by
  rw [astar_loop_eq, hpop]
  simp only [if_neg hg]

theorem select_min_f_perm : ∀ (xs : List Node) (best : Node),
    List.Perm ((select_min_f best xs).1 :: (select_min_f best xs).2) (best :: xs) := by
  intro xs
  induction xs with
  | nil => intro best; simp [select_min_f]
  | cons x rest ih =>
    intro best
    unfold select_min_f
    split_ifs
    · exact (List.Perm.swap best (select_min_f x rest).1 _).trans
        (List.Perm.cons best (ih x))
    · exact ((List.Perm.swap x (select_min_f best rest).1 _).trans
        (List.Perm.cons x (ih best))).trans (List.Perm.swap best x rest)

theorem select_min_f_min : ∀ (xs : List Node) (best : Node),
    (select_min_f best xs).1.f_cost ≤ best.f_cost
      ∧ ∀ x ∈ xs, (select_min_f best xs).1.f_cost ≤ x.f_cost := by
  intro xs
  induction xs with
  | nil => intro best; exact ⟨le_refl _, by simp⟩
  | cons x rest ih =>
    intro best
    unfold select_min_f
    split_ifs with h
    · refine ⟨le_of_lt (lt_of_le_of_lt (ih x).1 h), ?_⟩
      intro y hy
      rcases hy with _ | hy
      · exact (ih x).1
      · exact (ih x).2 _ (by assumption)
    · refine ⟨(ih best).1, ?_⟩
      intro y hy
      rcases hy with _ | hy
      · exact le_trans (ih best).1 (le_of_not_lt h)
      · exact (ih best).2 _ (by assumption)

theorem pop_min_f_perm (openl : List Node) (cur : Node) (rest : List Node)
    (h : pop_min_f openl = some (cur, rest)) :
    List.Perm (cur :: rest) openl := by
  match openl with
  | [] => simp [pop_min_f] at h
  | x :: xs =>
    simp only [pop_min_f, Option.some.injEq] at h
    have := select_min_f_perm xs x
    rw [show cur = (select_min_f x xs).1 from by rw [h], 
      show rest = (select_min_f x xs).2 from by rw [h]]
    exact this

theorem pop_min_f_min (openl : List Node) (cur : Node) (rest : List Node)
    (h : pop_min_f openl = some (cur, rest)) :
    ∀ x ∈ openl, cur.f_cost ≤ x.f_cost := by
  match openl with
  | [] => simp [pop_min_f] at h
  | x :: xs =>
    simp only [pop_min_f, Option.some.injEq] at h
    intro y hy
    have hm := select_min_f_min xs x
    rw [show cur = (select_min_f x xs).1 from by rw [h]]
    rcases hy with _ | hy
    · exact hm.1
    · exact hm.2 _ (by assumption)

theorem pop_min_f_none (openl : List Node) (h : pop_min_f openl = none) :
    openl = [] := by
  match openl with
  | [] => rfl
  | x :: xs => simp [pop_min_f] at h

theorem open_insert_mem (nd : Node) :
    ∀ (l : List Node), ∀ x ∈ open_insert nd l, x ∈ l ∨ x = nd := by
  intro l
  induction l with
  | nil => intro x hx; simp only [open_insert, List.mem_singleton] at hx; exact Or.inr hx
  | cons y ys ih =>
    intro x hx
    unfold open_insert at hx
    split_ifs at hx
    · rcases hx with _ | hx
      · exact Or.inr rfl
      · exact Or.inl (List.mem_cons_of_mem _ (by assumption))
    · rcases hx with _ | hx
      · exact Or.inl (List.mem_cons_self _ _)
      · exact Or.inl (List.mem_cons_of_mem _ (by assumption))
    · rcases hx with _ | hx
      · exact Or.inl (List.mem_cons_self _ _)
      · rcases ih x (by assumption) with h | h
        · exact Or.inl (List.mem_cons_of_mem _ h)
        · exact Or.inr h

theorem open_insert_upsert (nd : Node) :
    ∀ (l : List Node), ∃ z ∈ open_insert nd l,
      z.position = nd.position ∧ z.g_cost ≤ nd.g_cost := by
  intro l
  induction l with
  | nil => exact ⟨nd, by simp [open_insert]⟩
  | cons y ys ih =>
    unfold open_insert
    split_ifs with h1 h2
    · exact ⟨nd, List.mem_cons_self _ _, rfl, le_refl _⟩
    · refine ⟨y, List.mem_cons_self _ _, ?_, ?_⟩
      · exact beq_iff_eq.mp h1
      · omega
    · obtain ⟨z, hz, hzp, hzg⟩ := ih
      exact ⟨z, List.mem_cons_of_mem _ hz, hzp, hzg⟩

theorem open_insert_keep (nd : Node) (w : Pos) (B : ℕ) :
    ∀ (l : List Node), (∃ z ∈ l, z.position = w ∧ z.g_cost ≤ B)
      → ∃ z ∈ open_insert nd l, z.position = w ∧ z.g_cost ≤ B := by
  intro l
  induction l with
  | nil => rintro ⟨z, hz, _⟩; simp at hz
  | cons y ys ih =>
    rintro ⟨z, hz, hzp, hzg⟩
    unfold open_insert
    split_ifs with h1 h2
    · rcases hz with _ | hz
      · refine ⟨nd, List.mem_cons_self _ _, ?_, ?_⟩
        · rw [show nd.position = y.position from (beq_iff_eq.mp h1).symm]
          exact hzp
        · omega
      · exact ⟨z, List.mem_cons_of_mem _ (by assumption), hzp, hzg⟩
    · rcases hz with _ | hz
      · exact ⟨y, List.mem_cons_self _ _, hzp, hzg⟩
      · exact ⟨z, List.mem_cons_of_mem _ (by assumption), hzp, hzg⟩
    · rcases hz with _ | hz
      · exact ⟨y, List.mem_cons_self _ _, hzp, hzg⟩
      · obtain ⟨z', hz', hzp', hzg'⟩ := ih ⟨z, by assumption, hzp, hzg⟩
        exact ⟨z', List.mem_cons_of_mem _ hz', hzp', hzg'⟩

theorem open_insert_positions (nd : Node) :
    ∀ (l : List Node),
      (open_insert nd l).map Node.position = l.map Node.position
        ∨ ((open_insert nd l).map Node.position
              = l.map Node.position ++ [nd.position]
            ∧ nd.position ∉ l.map Node.position) := by
  intro l
  induction l with
  | nil => exact Or.inr ⟨rfl, by simp⟩
  | cons y ys ih =>
    unfold open_insert
    split_ifs with h1 h2
    · exact Or.inl (by simp [beq_iff_eq.mp h1])
    · exact Or.inl rfl
    · rcases ih with h | ⟨h, hn⟩
      · exact Or.inl (by simp [h])
      · refine Or.inr ⟨by simp [h], ?_⟩
        simp only [List.map_cons, List.mem_cons]
        push_neg
        exact ⟨fun he => h1 (by simp [he]), hn⟩

theorem astar_relax_cases (W H : ℕ) (terrain : Pos → Terrain)
    (occupied : Pos → Bool) (costFn : Terrain → Option ℕ) (goal : Pos)
    (cur : Node) (closed : List Pos) (o : List Node) (np : Pos) :
    astar_relax W H terrain occupied costFn goal cur closed o np = o
      ∨ ((costFn (terrain np)).isSome
          ∧ is_valid_coordinate W H np = true
          ∧ np ∉ closed
          ∧ (occupied np = false ∨ np = goal)
          ∧ astar_relax W H terrain occupied costFn goal cur closed o np
            = open_insert (relax_node costFn terrain goal cur np) o) := by
  unfold astar_relax
  split_ifs with h1 h2 h3
  · exact Or.inl rfl
  · exact Or.inl rfl
  · exact Or.inl rfl
  · cases hc : costFn (terrain np) with
    | none => exact Or.inl rfl
    | some c =>
      refine Or.inr ⟨by simp [hc], by simpa using h1, h2, ?_, ?_⟩
      · by_cases ho : occupied np = true
        · have h3' : occupied np = true → np = goal := by simpa using h3
          exact Or.inr (h3' ho)
        · exact Or.inl (by simpa using ho)
      · simp [relax_node, hc]

theorem astar_relax_insert (W H : ℕ) (terrain : Pos → Terrain)
    (occupied : Pos → Bool) (costFn : Terrain → Option ℕ) (goal : Pos)
    (cur : Node) (closed : List Pos) (o : List Node) (np : Pos)
    (hval : is_valid_coordinate W H np = true)
    (hncl : np ∉ closed)
    (hocc : occupied np = false ∨ np = goal)
    (hc : (costFn (terrain np)).isSome) :
    astar_relax W H terrain occupied costFn goal cur closed o np
      = open_insert (relax_node costFn terrain goal cur np) o := by
  unfold astar_relax
  rw [if_neg (by simp [hval]), if_neg (by simpa using hncl),
    if_neg (by rcases hocc with h | h <;> simp [h])]
  obtain ⟨c, hco⟩ := Option.isSome_iff_exists.mp hc
  rw [hco]
  simp [relax_node, hco]

theorem astar_fold_keep (W H : ℕ) (terrain : Pos → Terrain)
    (occupied : Pos → Bool) (costFn : Terrain → Option ℕ) (goal : Pos)
    (cur : Node) (closed : List Pos) (w : Pos) (B : ℕ) :
    ∀ (l : List Pos) (st : List Node),
      (∃ z ∈ st, z.position = w ∧ z.g_cost ≤ B)
      → ∃ z ∈ l.foldl
          (fun o off =>
            astar_relax W H terrain occupied costFn goal cur closed o
              (off_cell cur off)) st,
          z.position = w ∧ z.g_cost ≤ B := by
  intro l
  induction l with
  | nil => intro st h; simpa using h
  | cons off l' ih =>
    intro st h
    simp only [List.foldl_cons]
    apply ih
    rcases astar_relax_cases W H terrain occupied costFn goal cur closed st
        (off_cell cur off) with hc | ⟨_, _, _, _, hc⟩
    · rw [hc]; exact h
    · rw [hc]
      exact open_insert_keep _ _ _ _ h

theorem astar_fold_mem (W H : ℕ) (terrain : Pos → Terrain)
    (occupied : Pos → Bool) (costFn : Terrain → Option ℕ) (goal : Pos)
    (cur : Node) (closed : List Pos) :
    ∀ (l : List Pos) (st : List Node),
      ∀ x ∈ l.foldl
          (fun o off =>
            astar_relax W H terrain occupied costFn goal cur closed o
              (off_cell cur off)) st,
        x ∈ st
          ∨ ∃ off ∈ l,
              (costFn (terrain (off_cell cur off))).isSome
                ∧ is_valid_coordinate W H (off_cell cur off) = true
                ∧ off_cell cur off ∉ closed
                ∧ (occupied (off_cell cur off) = false ∨ off_cell cur off = goal)
                ∧ x = relax_node costFn terrain goal cur (off_cell cur off) := by
  intro l
  induction l with
  | nil => intro st x hx; exact Or.inl (by simpa using hx)
  | cons off l' ih =>
    intro st x hx
    simp only [List.foldl_cons] at hx
    rcases ih _ x hx with h | ⟨off', hoff', hfacts⟩
    · rcases astar_relax_cases W H terrain occupied costFn goal cur closed st
          (off_cell cur off) with hc | ⟨h1, h2, h3, h4, hc⟩
      · rw [hc] at h
        exact Or.inl h
      · rw [hc] at h
        rcases open_insert_mem _ _ x h with h' | h'
        · exact Or.inl h'
        · exact Or.inr ⟨off, List.mem_cons_self _ _, h1, h2, h3, h4, h'⟩
    · exact Or.inr ⟨off', List.mem_cons_of_mem _ hoff', hfacts⟩

theorem astar_fold_upsert (W H : ℕ) (terrain : Pos → Terrain)
    (occupied : Pos → Bool) (costFn : Terrain → Option ℕ) (goal : Pos)
    (cur : Node) (closed : List Pos) :
    ∀ (l : List Pos) (st : List Node) (off : Pos), off ∈ l
      → is_valid_coordinate W H (off_cell cur off) = true
      → off_cell cur off ∉ closed
      → (occupied (off_cell cur off) = false ∨ off_cell cur off = goal)
      → (costFn (terrain (off_cell cur off))).isSome
      → ∃ z ∈ l.foldl
          (fun o off =>
            astar_relax W H terrain occupied costFn goal cur closed o
              (off_cell cur off)) st,
          z.position = off_cell cur off
            ∧ z.g_cost ≤ cur.g_cost + (costFn (terrain (off_cell cur off))).getD 0 := by
  intro l
  induction l with
  | nil => intro st off h; simp at h
  | cons o1 l' ih =>
    intro st off hoff hval hncl hocc hc
    simp only [List.foldl_cons]
    rcases List.mem_cons.mp hoff with he | hoff'
    · subst he
      apply astar_fold_keep
      rw [astar_relax_insert W H terrain occupied costFn goal cur closed st
        (off_cell cur off) hval hncl hocc hc]
      exact open_insert_upsert _ _
    · exact ih _ off hoff' hval hncl hocc hc

theorem astar_fold_nodup (W H : ℕ) (terrain : Pos → Terrain)
    (occupied : Pos → Bool) (costFn : Terrain → Option ℕ) (goal : Pos)
    (cur : Node) (closed : List Pos) :
    ∀ (l : List Pos) (st : List Node),
      (st.map Node.position).Nodup
      → ((l.foldl
          (fun o off =>
            astar_relax W H terrain occupied costFn goal cur closed o
              (off_cell cur off)) st).map Node.position).Nodup := by
  intro l
  induction l with
  | nil => intro st h; simpa using h
  | cons off l' ih =>
    intro st h
    simp only [List.foldl_cons]
    apply ih
    rcases astar_relax_cases W H terrain occupied costFn goal cur closed st
        (off_cell cur off) with hc | ⟨_, _, _, _, hc⟩
    · rw [hc]; exact h
    · rw [hc]
      rcases open_insert_positions _ st with hp | ⟨hp, hn⟩
      · rw [hp]; exact h
      · rw [hp]
        simp only [List.nodup_append, List.nodup_singleton]
        exact ⟨h, trivial, by simpa using hn⟩

theorem expand_keep (W H : ℕ) (terrain : Pos → Terrain)
    (occupied : Pos → Bool) (costFn : Terrain → Option ℕ) (goal : Pos)
    (cur : Node) (closed : List Pos) (rest : List Node) (w : Pos) (B : ℕ)
    (h : ∃ z ∈ rest, z.position = w ∧ z.g_cost ≤ B) :
    ∃ z ∈ expand W H terrain occupied costFn goal cur closed rest,
      z.position = w ∧ z.g_cost ≤ B := by
  unfold expand
  exact astar_fold_keep W H terrain occupied costFn goal cur closed w B
    neighbor_offsets rest h

theorem expand_mem (W H : ℕ) (terrain : Pos → Terrain)
    (occupied : Pos → Bool) (costFn : Terrain → Option ℕ) (goal : Pos)
    (cur : Node) (closed : List Pos) (rest : List Node) :
    ∀ x ∈ expand W H terrain occupied costFn goal cur closed rest,
      x ∈ rest
        ∨ ∃ off ∈ neighbor_offsets,
            (costFn (terrain (off_cell cur off))).isSome
              ∧ is_valid_coordinate W H (off_cell cur off) = true
              ∧ off_cell cur off ∉ closed
              ∧ (occupied (off_cell cur off) = false ∨ off_cell cur off = goal)
              ∧ x = relax_node costFn terrain goal cur (off_cell cur off) := by
  unfold expand
  exact astar_fold_mem W H terrain occupied costFn goal cur closed
    neighbor_offsets rest

theorem expand_upsert (W H : ℕ) (terrain : Pos → Terrain)
    (occupied : Pos → Bool) (costFn : Terrain → Option ℕ) (goal : Pos)
    (cur : Node) (closed : List Pos) (rest : List Node) (off : Pos)
    (hoff : off ∈ neighbor_offsets)
    (hval : is_valid_coordinate W H (off_cell cur off) = true)
    (hncl : off_cell cur off ∉ closed)
    (hocc : occupied (off_cell cur off) = false ∨ off_cell cur off = goal)
    (hc : (costFn (terrain (off_cell cur off))).isSome) :
    ∃ z ∈ expand W H terrain occupied costFn goal cur closed rest,
      z.position = off_cell cur off
        ∧ z.g_cost ≤ cur.g_cost
            + (costFn (terrain (off_cell cur off))).getD 0 := by
  unfold expand
  exact astar_fold_upsert W H terrain occupied costFn goal cur closed
    neighbor_offsets rest off hoff hval hncl hocc hc

theorem expand_nodup (W H : ℕ) (terrain : Pos → Terrain)
    (occupied : Pos → Bool) (costFn : Terrain → Option ℕ) (goal : Pos)
    (cur : Node) (closed : List Pos) (rest : List Node)
    (h : (rest.map Node.position).Nodup) :
    ((expand W H terrain occupied costFn goal cur closed rest).map
        Node.position).Nodup := by
  unfold expand
  exact astar_fold_nodup W H terrain occupied costFn goal cur closed
    neighbor_offsets rest h

theorem dist_triangle (a b c : Pos) :
    distance a c ≤ distance a b + distance b c := by
  unfold distance
  omega

theorem dist_self (a : Pos) : distance a a = 0 := by
  unfold distance
  omega

theorem adj_dist (a b : Pos) (h : Adj a b) : distance a b = 1 := by
  unfold Adj neighbor_offsets at h
  simp only [List.mem_cons, List.not_mem_nil, or_false, Prod.mk.injEq] at h
  unfold distance
  rcases h with ⟨h1, h2⟩ | ⟨h1, h2⟩ | ⟨h1, h2⟩ | ⟨h1, h2⟩ <;> omega

theorem adj_ne (a b : Pos) (h : Adj a b) : b ≠ a := by
  intro he
  have h1 := adj_dist a b h
  rw [he, dist_self] at h1
  exact absurd h1 (by omega)

theorem adj_off_cell (cur : Node) (off : Pos) (h : off ∈ neighbor_offsets) :
    Adj cur.position (off_cell cur off) := by
  unfold Adj off_cell
  have heq : ((cur.position.1 + off.1 - cur.position.1,
      cur.position.2 + off.2 - cur.position.2) : Pos) = off := by
    have h1 : cur.position.1 + off.1 - cur.position.1 = off.1 := by ring
    have h2 : cur.position.2 + off.2 - cur.position.2 = off.2 := by ring
    rw [h1, h2]
  rw [heq]
  exact h

theorem adj_of_adj (z w : Pos) (h : Adj z w) :
    ∃ off ∈ neighbor_offsets,
      ((z.1 + off.1, z.2 + off.2) : Pos) = w := by
  refine ⟨(w.1 - z.1, w.2 - z.2), h, ?_⟩
  have h1 : z.1 + (w.1 - z.1) = w.1 := by ring
  have h2 : z.2 + (w.2 - z.2) = w.2 := by ring
  rw [h1, h2]

theorem vp_nonempty (W H : ℕ) (terrain : Pos → Terrain)
    (occupied : Pos → Bool) (costFn : Terrain → Option ℕ)
    (goal start z : Pos) (p : List Pos)
    (h : valid_path_to W H terrain occupied costFn goal start z p) :
    p ≠ [] := by
  intro he
  rw [he] at h
  simp [valid_path_to] at h

theorem vp_single (W H : ℕ) (terrain : Pos → Terrain)
    (occupied : Pos → Bool) (costFn : Terrain → Option ℕ)
    (goal start : Pos) :
    valid_path_to W H terrain occupied costFn goal start start [start] := by
  refine ⟨rfl, rfl, ?_, ?_⟩
  · simp
  · intro w hw
    simp at hw

theorem vp_snoc (W H : ℕ) (terrain : Pos → Terrain)
    (occupied : Pos → Bool) (costFn : Terrain → Option ℕ)
    (goal start a w : Pos) (q : List Pos)
    (hq : valid_path_to W H terrain occupied costFn goal start a q)
    (hadj : Adj a w)
    (hok : step_ok W H terrain occupied costFn goal w) :
    valid_path_to W H terrain occupied costFn goal start w (q ++ [w]) := by
  obtain ⟨hhead, hlast, hchain, hsteps⟩ := hq
  have hne : q ≠ [] := by
    intro he
    rw [he] at hhead
    simp at hhead
  refine ⟨?_, ?_, ?_, ?_⟩
  · cases q with
    | nil => exact absurd rfl hne
    | cons x xs => simpa using hhead
  · exact List.getLast?_concat q
  · rw [List.chain'_append]
    refine ⟨hchain, List.chain'_singleton w, ?_⟩
    intro x hx y hy
    simp only [List.head?_cons, Option.mem_def, Option.some.injEq] at hy
    rw [hlast] at hx
    simp only [Option.mem_def, Option.some.injEq] at hx
    rw [← hx, ← hy]
    exact hadj
  · intro v hv
    cases q with
    | nil => exact absurd rfl hne
    | cons x xs =>
      simp only [List.cons_append, List.tail_cons, List.mem_append,
        List.mem_singleton] at hv
      rcases hv with hv | hv
      · exact hsteps v (by simpa using hv)
      · rw [hv]; exact hok

theorem pc_single (terrain : Pos → Terrain) (costFn : Terrain → Option ℕ)
    (a : Pos) : path_cost terrain costFn [a] = 0 := rfl

theorem pc_snoc (terrain : Pos → Terrain) (costFn : Terrain → Option ℕ)
    (q : List Pos) (w : Pos) (hne : q ≠ []) :
    path_cost terrain costFn (q ++ [w])
      = path_cost terrain costFn q + (costFn (terrain w)).getD 0 := by
  cases q with
  | nil => exact absurd rfl hne
  | cons x xs =>
    simp [path_cost]

theorem pc_cons (terrain : Pos → Terrain) (costFn : Terrain → Option ℕ)
    (a : Pos) (r : List Pos) :
    path_cost terrain costFn (a :: r)
      = (r.map (fun w => (costFn (terrain w)).getD 0)).sum := rfl

theorem chain_dist (terrain : Pos → Terrain) (costFn : Terrain → Option ℕ)
    (hc : ∀ t c, costFn t = some c → 1 ≤ c) (z : Pos) :
    ∀ (r : List Pos) (a : Pos), List.Chain Adj a r
      → (∀ w ∈ r, (costFn (terrain w)).isSome)
      → r.getLast? = some z
      → distance a z ≤ (r.map (fun w => (costFn (terrain w)).getD 0)).sum := by
  intro r
  induction r with
  | nil => intro a _ _ hlast; simp at hlast
  | cons w r' ih =>
    intro a hchain hsome hlast
    obtain ⟨haw, hchain'⟩ := List.chain_cons.mp hchain
    have hcw : 1 ≤ (costFn (terrain w)).getD 0 := by
      obtain ⟨c, hco⟩ := Option.isSome_iff_exists.mp
        (hsome w (List.mem_cons_self _ _))
      rw [hco]
      exact hc _ _ hco
    cases r' with
    | nil =>
      simp only [List.getLast?_singleton, Option.some.injEq] at hlast
      rw [← hlast]
      have := adj_dist a w haw
      simp only [List.map_cons, List.map_nil, List.sum_cons, List.sum_nil]
      omega
    | cons w2 r'' =>
      have hlast' : (w2 :: r'').getLast? = some z := by
        rw [← hlast]
        exact List.getLast?_cons_cons.symm
      have hd2 := ih w hchain' (fun v hv => hsome v (List.mem_cons_of_mem _ hv))
        hlast'
      have htri := dist_triangle a w z
      have had := adj_dist a w haw
      simp only [List.map_cons, List.sum_cons] at hd2 ⊢
      omega

section AStarInvariant

variable (W H : ℕ) (terrain : Pos → Terrain) (occupied : Pos → Bool)
variable (costFn : Terrain → Option ℕ) (start goal : Pos)

theorem AInv_init :
    AInv W H terrain occupied costFn start goal
      [⟨start, [start], 0, distance start goal, 0 + distance start goal⟩]
      [] := by
  refine ⟨?_, ?_, ?_, ?_, ?_, ?_, ?_, ?_⟩
  · intro nd hnd
    simp only [List.mem_singleton] at hnd
    subst hnd
    exact ⟨vp_single W H terrain occupied costFn goal start, rfl, rfl, rfl,
      Or.inl rfl⟩
  · simp
  · simp
  · simp
  · simp
  · intro z hz; simp at hz
  · intro _
    exact ⟨_, List.mem_singleton_self _, rfl⟩
  · intro z hz; simp at hz

theorem AGhost_init :
    AGhost W H terrain occupied costFn start goal
      [⟨start, [start], 0, distance start goal, 0 + distance start goal⟩]
      [] := by
  refine ⟨?_, ?_⟩
  · intro _
    exact ⟨_, List.mem_singleton_self _, rfl, rfl⟩
  · intro z hz; simp at hz


theorem AInv_step (openl : List Node) (closed : List Pos) (cur : Node)
    (rest : List Node)
    (hinv : AInv W H terrain occupied costFn start goal openl closed)
    (hpop : pop_min_f openl = some (cur, rest))
    (hng : cur.position ≠ goal) :
    AInv W H terrain occupied costFn start goal
      (expand W H terrain occupied costFn goal cur closed rest)
      (closed ++ [cur.position]) := by
  have hperm := pop_min_f_perm openl cur rest hpop
  have hcur : cur ∈ openl := hperm.subset (List.mem_cons_self _ _)
  have hrest : ∀ x ∈ rest, x ∈ openl :=
    fun x hx => hperm.subset (List.mem_cons_of_mem _ hx)
  have hcwf := hinv.wf cur hcur
  have hcnc : cur.position ∉ closed := hinv.disj cur hcur
  have hnodup : ((cur :: rest).map Node.position).Nodup :=
    ((hperm.map Node.position).nodup_iff).mpr hinv.nodup_open
  have hcur_notin_rest : cur.position ∉ rest.map Node.position := by
    simp only [List.map_cons, List.nodup_cons] at hnodup
    exact hnodup.1
  have hrest_nodup : (rest.map Node.position).Nodup := by
    simp only [List.map_cons, List.nodup_cons] at hnodup
    exact hnodup.2
  have hmem := expand_mem W H terrain occupied costFn goal cur closed rest
  have hnotcur : ∀ x ∈ rest, x.position ≠ cur.position := by
    intro x hx he
    exact hcur_notin_rest (he ▸ List.mem_map_of_mem Node.position hx)
  have hnew_wf : ∀ off ∈ neighbor_offsets,
      (costFn (terrain (off_cell cur off))).isSome
      → is_valid_coordinate W H (off_cell cur off) = true
      → (occupied (off_cell cur off) = false ∨ off_cell cur off = goal)
      → node_wf W H terrain occupied costFn start goal
          (relax_node costFn terrain goal cur (off_cell cur off)) := by
    intro off hoff h1 h2 h4
    have hadj := adj_off_cell cur off hoff
    have hok : step_ok W H terrain occupied costFn goal (off_cell cur off) :=
      ⟨h2, h1, h4⟩
    have hpne : cur.path ≠ [] :=
      vp_nonempty W H terrain occupied costFn goal start cur.position cur.path
        hcwf.1
    refine ⟨?_, ?_, rfl, rfl, Or.inr hok⟩
    · exact vp_snoc W H terrain occupied costFn goal start cur.position
        (off_cell cur off) cur.path hcwf.1 hadj hok
    · show cur.g_cost + (costFn (terrain (off_cell cur off))).getD 0
        = path_cost terrain costFn (cur.path ++ [off_cell cur off])
      rw [pc_snoc terrain costFn cur.path (off_cell cur off) hpne, ← hcwf.2.1]
  refine ⟨?_, ?_, ?_, ?_, ?_, ?_, ?_, ?_⟩
  · intro x hx
    rcases hmem x hx with hx2 | ⟨off, hoff, h1, h2, h3, h4, hx2⟩
    · exact hinv.wf x (hrest x hx2)
    · rw [hx2]
      exact hnew_wf off hoff h1 h2 h4
  · exact expand_nodup W H terrain occupied costFn goal cur closed rest
      hrest_nodup
  · intro x hx
    simp only [List.mem_append, List.mem_singleton, not_or]
    rcases hmem x hx with hx2 | ⟨off, hoff, h1, h2, h3, h4, hx2⟩
    · exact ⟨hinv.disj x (hrest x hx2), hnotcur x hx2⟩
    · refine ⟨?_, ?_⟩
      · rw [hx2]
        exact h3
      · rw [hx2]
        show off_cell cur off ≠ cur.position
        exact adj_ne _ _ (adj_off_cell cur off hoff)
  · simp only [List.mem_append, List.mem_singleton, not_or]
    exact ⟨hinv.goal_free, fun he => hng he.symm⟩
  · rw [List.nodup_append]
    refine ⟨hinv.nodup_closed, by simp, ?_⟩
    intro a ha hb
    rw [List.mem_singleton] at hb
    exact hcnc (hb ▸ ha)
  · intro z hz
    rcases List.mem_append.mp hz with hz | hz
    · exact hinv.dom_closed z hz
    · rw [List.mem_singleton] at hz
      rw [hz]
      exact hcwf.2.2.2.2
  · intro hs
    simp only [List.mem_append, List.mem_singleton, not_or] at hs
    obtain ⟨nd, hnd, hndp⟩ := hinv.start_mem hs.1
    rcases List.mem_cons.mp (hperm.mem_iff.mpr hnd) with he | hnd2
    · subst he
      exact absurd hndp.symm hs.2
    · obtain ⟨z, hz, hzp, _⟩ := expand_keep W H terrain occupied costFn goal
        cur closed rest start nd.g_cost ⟨nd, hnd2, hndp, le_refl _⟩
      exact ⟨z, hz, hzp⟩
  · intro z hz w hadj hok hw
    simp only [List.mem_append, List.mem_singleton, not_or] at hw
    rcases List.mem_append.mp hz with hz | hz
    · obtain ⟨nd, hnd, hndp⟩ := hinv.edge z hz w hadj hok hw.1
      have hnd2 : nd ∈ rest := by
        rcases List.mem_cons.mp (hperm.mem_iff.mpr hnd) with he | h
        · exfalso
          apply hw.2
          rw [← hndp, he]
        · exact h
      obtain ⟨z2, hz2, hzp2, _⟩ := expand_keep W H terrain occupied costFn
        goal cur closed rest w nd.g_cost ⟨nd, hnd2, hndp, le_refl _⟩
      exact ⟨z2, hz2, hzp2⟩
    · rw [List.mem_singleton] at hz
      subst hz
      obtain ⟨off, hoff, hoffeq⟩ := adj_of_adj cur.position w hadj
      have hoc : off_cell cur off = w := hoffeq
      obtain ⟨z2, hz2, hzp2, _⟩ := expand_upsert W H terrain occupied costFn
        goal cur closed rest off hoff (by rw [hoc]; exact hok.1)
        (by rw [hoc]; exact hw.1) (by rw [hoc]; exact hok.2.2)
        (by rw [hoc]; exact hok.2.1)
      exact ⟨z2, hz2, by rw [hzp2, hoc]⟩

theorem cover_aux (openl : List Node) (closed : List Pos)
    (hc : ∀ t c, costFn t = some c → 1 ≤ c)
    (hgh : AGhost W H terrain occupied costFn start goal openl closed)
    (z : Pos) (hz : z ∉ closed) :
    ∀ (r q : List Pos) (a : Pos),
      valid_path_to W H terrain occupied costFn goal start a q
      → a ∈ closed
      → List.Chain Adj a r
      → (∀ w ∈ r, step_ok W H terrain occupied costFn goal w)
      → r.getLast? = some z
      → ∃ nd ∈ openl, nd.g_cost + distance nd.position z
          ≤ path_cost terrain costFn q
            + (r.map (fun w => (costFn (terrain w)).getD 0)).sum := by
  intro r
  induction r with
  | nil =>
    intro q a _ _ _ _ hlast
    simp at hlast
  | cons w r2 ih =>
    intro q a hvq ha hchain hsteps hlast
    obtain ⟨haw, hchain2⟩ := List.chain_cons.mp hchain
    have hokw : step_ok W H terrain occupied costFn goal w :=
      hsteps w (List.mem_cons_self _ _)
    have hqne : q ≠ [] :=
      vp_nonempty W H terrain occupied costFn goal start a q hvq
    by_cases hw : w ∈ closed
    · cases r2 with
      | nil =>
        simp only [List.getLast?_singleton, Option.some.injEq] at hlast
        exact absurd (hlast ▸ hw) hz
      | cons w2 r3 =>
        have hlast2 : (w2 :: r3).getLast? = some z := by
          rw [← hlast]
          exact List.getLast?_cons_cons.symm
        obtain ⟨nd, hnd, hb⟩ := ih (q ++ [w]) w
          (vp_snoc W H terrain occupied costFn goal start a w q hvq haw hokw)
          hw hchain2 (fun v hv => hsteps v (List.mem_cons_of_mem _ hv)) hlast2
        refine ⟨nd, hnd, ?_⟩
        rw [pc_snoc terrain costFn q w hqne] at hb
        simp only [List.map_cons, List.sum_cons] at hb ⊢
        omega
    · obtain ⟨ga, hlb, hedge⟩ := hgh.ghost a ha
      obtain ⟨nd, hnd, hndp, hndg⟩ := hedge w haw hokw hw
      have hga : ga ≤ path_cost terrain costFn q := hlb q hvq
      refine ⟨nd, hnd, ?_⟩
      cases r2 with
      | nil =>
        simp only [List.getLast?_singleton, Option.some.injEq] at hlast
        rw [hndp, ← hlast, dist_self]
        simp only [List.map_cons, List.map_nil, List.sum_cons, List.sum_nil]
        omega
      | cons w2 r3 =>
        have hlast2 : (w2 :: r3).getLast? = some z := by
          rw [← hlast]
          exact List.getLast?_cons_cons.symm
        have hsome : ∀ v ∈ w2 :: r3, (costFn (terrain v)).isSome :=
          fun v hv => (hsteps v (List.mem_cons_of_mem _ hv)).2.1
        have hd := chain_dist terrain costFn hc z (w2 :: r3) w hchain2 hsome
          hlast2
        rw [hndp]
        simp only [List.map_cons, List.sum_cons] at hd ⊢
        omega

theorem pop_le (openl : List Node) (closed : List Pos)
    (hc : ∀ t c, costFn t = some c → 1 ≤ c)
    (hgh : AGhost W H terrain occupied costFn start goal openl closed)
    (z : Pos) (p : List Pos)
    (hvp : valid_path_to W H terrain occupied costFn goal start z p)
    (hz : z ∉ closed) :
    ∃ nd ∈ openl,
      nd.g_cost + distance nd.position z ≤ path_cost terrain costFn p := by
  obtain ⟨hhead, hlast, hchain, hsteps⟩ := hvp
  cases p with
  | nil => simp at hhead
  | cons v r =>
    simp only [List.head?_cons, Option.some.injEq] at hhead
    subst hhead
    by_cases hs : v ∈ closed
    · cases r with
      | nil =>
        simp only [List.getLast?_singleton, Option.some.injEq] at hlast
        exact absurd (hlast ▸ hs) hz
      | cons w r2 =>
        have hchain2 : List.Chain Adj v (w :: r2) := hchain
        have hlast2 : (w :: r2).getLast? = some z := by
          rw [← hlast]
          exact List.getLast?_cons_cons.symm
        obtain ⟨nd, hnd, hb⟩ := cover_aux W H terrain occupied costFn v goal
          openl closed hc hgh z hz (w :: r2) [v] v
          (vp_single W H terrain occupied costFn goal v) hs hchain2
          (fun u hu => hsteps u hu) hlast2
        refine ⟨nd, hnd, ?_⟩
        rw [pc_cons]
        simpa [pc_single] using hb
    · obtain ⟨nd, hnd, hnds, hndg⟩ := hgh.start0 hs
      refine ⟨nd, hnd, ?_⟩
      rw [hndg, hnds, zero_add]
      cases r with
      | nil =>
        simp only [List.getLast?_singleton, Option.some.injEq] at hlast
        rw [← hlast, dist_self]
        exact Nat.zero_le _
      | cons w r2 =>
        have hchain2 : List.Chain Adj v (w :: r2) := hchain
        have hlast2 : (w :: r2).getLast? = some z := by
          rw [← hlast]
          exact List.getLast?_cons_cons.symm
        have hd := chain_dist terrain costFn hc z (w :: r2) v hchain2
          (fun u hu => (hsteps u hu).2.1) hlast2
        rw [pc_cons]
        exact hd

theorem pop_optimal (openl : List Node) (closed : List Pos) (cur : Node)
    (rest : List Node)
    (hc : ∀ t c, costFn t = some c → 1 ≤ c)
    (hinv : AInv W H terrain occupied costFn start goal openl closed)
    (hgh : AGhost W H terrain occupied costFn start goal openl closed)
    (hpop : pop_min_f openl = some (cur, rest))
    (z : Pos) (p : List Pos)
    (hvp : valid_path_to W H terrain occupied costFn goal start z p)
    (hz : z ∉ closed) :
    cur.g_cost + distance cur.position goal
      ≤ path_cost terrain costFn p + distance z goal := by
  obtain ⟨nd, hnd, hb⟩ := pop_le W H terrain occupied costFn start goal openl
    closed hc hgh z p hvp hz
  have hmin := pop_min_f_min openl cur rest hpop nd hnd
  have hcur : cur ∈ openl :=
    (pop_min_f_perm openl cur rest hpop).subset (List.mem_cons_self _ _)
  have hcwf := hinv.wf cur hcur
  have hnwf := hinv.wf nd hnd
  have h1 : cur.f_cost = cur.g_cost + distance cur.position goal := by
    rw [hcwf.2.2.2.1, hcwf.2.2.1]
  have h2 : nd.f_cost = nd.g_cost + distance nd.position goal := by
    rw [hnwf.2.2.2.1, hnwf.2.2.1]
  have htri := dist_triangle nd.position z goal
  omega

theorem AGhost_step (openl : List Node) (closed : List Pos) (cur : Node)
    (rest : List Node)
    (hc : ∀ t c, costFn t = some c → 1 ≤ c)
    (hinv : AInv W H terrain occupied costFn start goal openl closed)
    (hgh : AGhost W H terrain occupied costFn start goal openl closed)
    (hpop : pop_min_f openl = some (cur, rest)) :
    AGhost W H terrain occupied costFn start goal
      (expand W H terrain occupied costFn goal cur closed rest)
      (closed ++ [cur.position]) := by
  have hperm := pop_min_f_perm openl cur rest hpop
  have hcur : cur ∈ openl := hperm.subset (List.mem_cons_self _ _)
  refine ⟨?_, ?_⟩
  · intro hs
    simp only [List.mem_append, List.mem_singleton, not_or] at hs
    obtain ⟨nd, hnd, hnds, hndg⟩ := hgh.start0 hs.1
    have hnd2 : nd ∈ rest := by
      rcases List.mem_cons.mp (hperm.mem_iff.mpr hnd) with he | h
      · subst he
        exact absurd hnds.symm hs.2
      · exact h
    obtain ⟨z2, hz2, hzp2, hzg2⟩ := expand_keep W H terrain occupied costFn
      goal cur closed rest start 0 ⟨nd, hnd2, hnds, le_of_eq hndg⟩
    exact ⟨z2, hz2, hzp2, Nat.le_zero.mp hzg2⟩
  · intro z hz
    rcases List.mem_append.mp hz with hz | hz
    · obtain ⟨gz, hlb, hedge⟩ := hgh.ghost z hz
      refine ⟨gz, hlb, ?_⟩
      intro w hadj hok hw
      simp only [List.mem_append, List.mem_singleton, not_or] at hw
      obtain ⟨nd, hnd, hndp, hndg⟩ := hedge w hadj hok hw.1
      have hnd2 : nd ∈ rest := by
        rcases List.mem_cons.mp (hperm.mem_iff.mpr hnd) with he | h
        · exfalso
          apply hw.2
          rw [← hndp, he]
        · exact h
      obtain ⟨z2, hz2, hzp2, hzg2⟩ := expand_keep W H terrain occupied costFn
        goal cur closed rest w (gz + (costFn (terrain w)).getD 0)
        ⟨nd, hnd2, hndp, hndg⟩
      exact ⟨z2, hz2, hzp2, hzg2⟩
    · rw [List.mem_singleton] at hz
      subst hz
      refine ⟨cur.g_cost, ?_, ?_⟩
      · intro p hp
        have hcnc : cur.position ∉ closed := hinv.disj cur hcur
        have := pop_optimal W H terrain occupied costFn start goal openl
          closed cur rest hc hinv hgh hpop cur.position p hp hcnc
        omega
      · intro w hadj hok hw
        simp only [List.mem_append, List.mem_singleton, not_or] at hw
        obtain ⟨off, hoff, hoffeq⟩ := adj_of_adj cur.position w hadj
        have hoc : off_cell cur off = w := hoffeq
        obtain ⟨z2, hz2, hzp2, hzg2⟩ := expand_upsert W H terrain occupied
          costFn goal cur closed rest off hoff (by rw [hoc]; exact hok.1)
          (by rw [hoc]; exact hw.1) (by rw [hoc]; exact hok.2.2)
          (by rw [hoc]; exact hok.2.1)
        rw [hoc] at hzg2
        exact ⟨z2, hz2, by rw [hzp2, hoc], hzg2⟩

theorem valid_cells_card : (valid_cells W H).card = W * H := by
  unfold valid_cells
  rw [Finset.card_product]
  have h1 : (Finset.Ico (0 : ℤ) (W : ℤ)).card = W := by
    rw [Int.card_Ico]
    omega
  have h2 : (Finset.Ico (0 : ℤ) (H : ℤ)).card = H := by
    rw [Int.card_Ico]
    omega
  rw [h1, h2]

theorem mem_valid_cells (p : Pos) (h : is_valid_coordinate W H p = true) :
    p ∈ valid_cells W H := by
  unfold is_valid_coordinate at h
  unfold valid_cells
  simp only [Bool.and_eq_true, decide_eq_true_eq] at h
  rw [Finset.mem_product, Finset.mem_Ico, Finset.mem_Ico]
  exact ⟨⟨h.1.1.1, h.1.1.2⟩, h.1.2, h.2⟩

theorem closed_card_le (openl : List Node) (closed : List Pos)
    (hinv : AInv W H terrain occupied costFn start goal openl closed) :
    closed.length ≤ W * H + 1 := by
  have hsub : ∀ z ∈ closed, z ∈ insert start (valid_cells W H) := by
    intro z hz
    rcases hinv.dom_closed z hz with h | h
    · rw [h]
      exact Finset.mem_insert_self _ _
    · exact Finset.mem_insert_of_mem (mem_valid_cells W H z h.1)
  calc closed.length = closed.toFinset.card :=
        (List.toFinset_card_of_nodup hinv.nodup_closed).symm
    _ ≤ (insert start (valid_cells W H)).card :=
        Finset.card_le_card (fun z hz => hsub z (List.mem_toFinset.mp hz))
    _ ≤ (valid_cells W H).card + 1 := Finset.card_insert_le _ _
    _ = W * H + 1 := by rw [valid_cells_card]

theorem astar_loop_sound : ∀ (fuel : ℕ) (openl : List Node)
    (closed : List Pos) (p : List Pos),
    AInv W H terrain occupied costFn start goal openl closed
    → astar_loop W H terrain occupied costFn goal fuel openl closed
        = some (some p)
    → valid_path_to W H terrain occupied costFn goal start goal p := by
  intro fuel
  induction fuel with
  | zero =>
    intro openl closed p hinv heq
    rcases hpop : pop_min_f openl with _ | ⟨cur, rest⟩
    · rw [astar_loop_none W H terrain occupied costFn goal _ openl closed
          hpop] at heq
      simp at heq
    · by_cases hg : cur.position = goal
      · rw [astar_loop_found W H terrain occupied costFn goal _ openl closed
            cur rest hpop hg] at heq
        simp only [Option.some.injEq] at heq
        subst heq
        have hcur : cur ∈ openl :=
          (pop_min_f_perm openl cur rest hpop).subset
            (List.mem_cons_self _ _)
        have hwf := (hinv.wf cur hcur).1
        rw [hg] at hwf
        exact hwf
      · rw [astar_loop_stop W H terrain occupied costFn goal openl closed cur
            rest hpop hg] at heq
        simp at heq
  | succ n ih =>
    intro openl closed p hinv heq
    rcases hpop : pop_min_f openl with _ | ⟨cur, rest⟩
    · rw [astar_loop_none W H terrain occupied costFn goal _ openl closed
          hpop] at heq
      simp at heq
    · by_cases hg : cur.position = goal
      · rw [astar_loop_found W H terrain occupied costFn goal _ openl closed
            cur rest hpop hg] at heq
        simp only [Option.some.injEq] at heq
        subst heq
        have hcur : cur ∈ openl :=
          (pop_min_f_perm openl cur rest hpop).subset
            (List.mem_cons_self _ _)
        have hwf := (hinv.wf cur hcur).1
        rw [hg] at hwf
        exact hwf
      · rw [astar_loop_step W H terrain occupied costFn goal n openl closed
            cur rest hpop hg] at heq
        exact ih _ _ p
          (AInv_step W H terrain occupied costFn start goal openl closed cur
            rest hinv hpop hg) heq

theorem cover_light (openl : List Node) (closed : List Pos)
    (hinv : AInv W H terrain occupied costFn start goal openl closed)
    (z : Pos) (hz : z ∉ closed) :
    ∀ (r : List Pos) (a : Pos), a ∈ closed
      → List.Chain Adj a r
      → (∀ w ∈ r, step_ok W H terrain occupied costFn goal w)
      → r.getLast? = some z
      → ∃ nd, nd ∈ openl := by
  intro r
  induction r with
  | nil =>
    intro a _ _ _ hlast
    simp at hlast
  | cons w r2 ih =>
    intro a ha hchain hsteps hlast
    obtain ⟨haw, hchain2⟩ := List.chain_cons.mp hchain
    have hokw : step_ok W H terrain occupied costFn goal w :=
      hsteps w (List.mem_cons_self _ _)
    by_cases hw : w ∈ closed
    · cases r2 with
      | nil =>
        simp only [List.getLast?_singleton, Option.some.injEq] at hlast
        exact absurd (hlast ▸ hw) hz
      | cons w2 r3 =>
        have hlast2 : (w2 :: r3).getLast? = some z := by
          rw [← hlast]
          exact List.getLast?_cons_cons.symm
        exact ih w hw hchain2
          (fun v hv => hsteps v (List.mem_cons_of_mem _ hv)) hlast2
    · obtain ⟨nd, hnd, _⟩ := hinv.edge a ha w haw hokw hw
      exact ⟨nd, hnd⟩

theorem open_nonempty_of_path (openl : List Node) (closed : List Pos)
    (hinv : AInv W H terrain occupied costFn start goal openl closed)
    (z : Pos) (p : List Pos)
    (hvp : valid_path_to W H terrain occupied costFn goal start z p)
    (hz : z ∉ closed) :
    ∃ nd, nd ∈ openl := by
  obtain ⟨hhead, hlast, hchain, hsteps⟩ := hvp
  cases p with
  | nil => simp at hhead
  | cons v r =>
    simp only [List.head?_cons, Option.some.injEq] at hhead
    subst hhead
    by_cases hs : v ∈ closed
    · cases r with
      | nil =>
        simp only [List.getLast?_singleton, Option.some.injEq] at hlast
        exact absurd (hlast ▸ hs) hz
      | cons w r2 =>
        have hchain2 : List.Chain Adj v (w :: r2) := hchain
        have hlast2 : (w :: r2).getLast? = some z := by
          rw [← hlast]
          exact List.getLast?_cons_cons.symm
        exact cover_light W H terrain occupied costFn v goal openl closed
          hinv z hz (w :: r2) v hs hchain2 (fun u hu => hsteps u hu) hlast2
    · obtain ⟨nd, hnd, _⟩ := hinv.start_mem hs
      exact ⟨nd, hnd⟩

theorem astar_loop_complete : ∀ (fuel : ℕ) (openl : List Node)
    (closed : List Pos) (p : List Pos),
    AInv W H terrain occupied costFn start goal openl closed
    → valid_path_to W H terrain occupied costFn goal start goal p
    → astar_loop W H terrain occupied costFn goal fuel openl closed
        ≠ some none := by
  intro fuel
  induction fuel with
  | zero =>
    intro openl closed p hinv hvp heq
    rcases hpop : pop_min_f openl with _ | ⟨cur, rest⟩
    · obtain ⟨nd, hnd⟩ := open_nonempty_of_path W H terrain occupied costFn
        start goal openl closed hinv goal p hvp hinv.goal_free
      rw [pop_min_f_none openl hpop] at hnd
      simp at hnd
    · by_cases hg : cur.position = goal
      · rw [astar_loop_found W H terrain occupied costFn goal _ openl closed
            cur rest hpop hg] at heq
        simp at heq
      · rw [astar_loop_stop W H terrain occupied costFn goal openl closed cur
            rest hpop hg] at heq
        simp at heq
  | succ n ih =>
    intro openl closed p hinv hvp heq
    rcases hpop : pop_min_f openl with _ | ⟨cur, rest⟩
    · obtain ⟨nd, hnd⟩ := open_nonempty_of_path W H terrain occupied costFn
        start goal openl closed hinv goal p hvp hinv.goal_free
      rw [pop_min_f_none openl hpop] at hnd
      simp at hnd
    · by_cases hg : cur.position = goal
      · rw [astar_loop_found W H terrain occupied costFn goal _ openl closed
            cur rest hpop hg] at heq
        simp at heq
      · rw [astar_loop_step W H terrain occupied costFn goal n openl closed
            cur rest hpop hg] at heq
        exact ih _ _ p
          (AInv_step W H terrain occupied costFn start goal openl closed cur
            rest hinv hpop hg) hvp heq

theorem astar_loop_fuel : ∀ (fuel : ℕ) (openl : List Node)
    (closed : List Pos),
    AInv W H terrain occupied costFn start goal openl closed
    → W * H + 1 ≤ closed.length + fuel
    → astar_loop W H terrain occupied costFn goal fuel openl closed
        ≠ none := by
  intro fuel
  induction fuel with
  | zero =>
    intro openl closed hinv hle heq
    rcases hpop : pop_min_f openl with _ | ⟨cur, rest⟩
    · rw [astar_loop_none W H terrain occupied costFn goal _ openl closed
          hpop] at heq
      simp at heq
    · by_cases hg : cur.position = goal
      · rw [astar_loop_found W H terrain occupied costFn goal _ openl closed
            cur rest hpop hg] at heq
        simp at heq
      · have hinv2 := AInv_step W H terrain occupied costFn start goal openl
          closed cur rest hinv hpop hg
        have hcard := closed_card_le W H terrain occupied costFn start goal
          _ _ hinv2
        simp only [List.length_append, List.length_singleton] at hcard
        omega
  | succ n ih =>
    intro openl closed hinv hle heq
    rcases hpop : pop_min_f openl with _ | ⟨cur, rest⟩
    · rw [astar_loop_none W H terrain occupied costFn goal _ openl closed
          hpop] at heq
      simp at heq
    · by_cases hg : cur.position = goal
      · rw [astar_loop_found W H terrain occupied costFn goal _ openl closed
            cur rest hpop hg] at heq
        simp at heq
      · rw [astar_loop_step W H terrain occupied costFn goal n openl closed
            cur rest hpop hg] at heq
        refine ih _ _
          (AInv_step W H terrain occupied costFn start goal openl closed cur
            rest hinv hpop hg) ?_ heq
        simp only [List.length_append, List.length_singleton]
        omega

theorem astar_loop_opt (hc : ∀ t c, costFn t = some c → 1 ≤ c) :
    ∀ (fuel : ℕ) (openl : List Node) (closed : List Pos) (p : List Pos),
    AInv W H terrain occupied costFn start goal openl closed
    → AGhost W H terrain occupied costFn start goal openl closed
    → astar_loop W H terrain occupied costFn goal fuel openl closed
        = some (some p)
    → ∀ q, valid_path_to W H terrain occupied costFn goal start goal q
        → path_cost terrain costFn p ≤ path_cost terrain costFn q := by
  intro fuel
  induction fuel with
  | zero =>
    intro openl closed p hinv hgh heq q hq
    rcases hpop : pop_min_f openl with _ | ⟨cur, rest⟩
    · rw [astar_loop_none W H terrain occupied costFn goal _ openl closed
          hpop] at heq
      simp at heq
    · by_cases hg : cur.position = goal
      · rw [astar_loop_found W H terrain occupied costFn goal _ openl closed
            cur rest hpop hg] at heq
        simp only [Option.some.injEq] at heq
        subst heq
        have hcur : cur ∈ openl :=
          (pop_min_f_perm openl cur rest hpop).subset
            (List.mem_cons_self _ _)
        have hcwf := hinv.wf cur hcur
        have hopt := pop_optimal W H terrain occupied costFn start goal openl
          closed cur rest hc hinv hgh hpop goal q hq hinv.goal_free
        rw [hg, dist_self] at hopt
        rw [← hcwf.2.1]
        omega
      · rw [astar_loop_stop W H terrain occupied costFn goal openl closed cur
            rest hpop hg] at heq
        simp at heq
  | succ n ih =>
    intro openl closed p hinv hgh heq q hq
    rcases hpop : pop_min_f openl with _ | ⟨cur, rest⟩
    · rw [astar_loop_none W H terrain occupied costFn goal _ openl closed
          hpop] at heq
      simp at heq
    · by_cases hg : cur.position = goal
      · rw [astar_loop_found W H terrain occupied costFn goal _ openl closed
            cur rest hpop hg] at heq
        simp only [Option.some.injEq] at heq
        subst heq
        have hcur : cur ∈ openl :=
          (pop_min_f_perm openl cur rest hpop).subset
            (List.mem_cons_self _ _)
        have hcwf := hinv.wf cur hcur
        have hopt := pop_optimal W H terrain occupied costFn start goal openl
          closed cur rest hc hinv hgh hpop goal q hq hinv.goal_free
        rw [hg, dist_self] at hopt
        rw [← hcwf.2.1]
        omega
      · rw [astar_loop_step W H terrain occupied costFn goal n openl closed
            cur rest hpop hg] at heq
        exact ih _ _ p
          (AInv_step W H terrain occupied costFn start goal openl closed cur
            rest hinv hpop hg)
          (AGhost_step W H terrain occupied costFn start goal openl closed
            cur rest hc hinv hgh hpop) heq q hq

end AStarInvariant
theorem a_star_sound (W H : ℕ) (terrain : Pos → Terrain)
    (occupied : Pos → Bool) (costFn : Terrain → Option ℕ)
    (start goal : Pos) (p : List Pos)
    (h : a_star_pathfinding W H terrain occupied costFn start goal
      = some (some p)) :
    valid_path W H terrain occupied costFn start goal p := by
  have h2 : astar_loop W H terrain occupied costFn goal (W * H + 1)
      [⟨start, [start], 0, distance start goal, 0 + distance start goal⟩] []
      = some (some p) := h
  exact astar_loop_sound W H terrain occupied costFn start goal (W * H + 1)
    _ _ p (AInv_init W H terrain occupied costFn start goal) h2

theorem a_star_no_fuel_out (W H : ℕ) (terrain : Pos → Terrain)
    (occupied : Pos → Bool) (costFn : Terrain → Option ℕ)
    (start goal : Pos) :
    a_star_pathfinding W H terrain occupied costFn start goal ≠ none := by
  show astar_loop W H terrain occupied costFn goal (W * H + 1)
      [⟨start, [start], 0, distance start goal, 0 + distance start goal⟩] []
      ≠ none
  apply astar_loop_fuel W H terrain occupied costFn start goal (W * H + 1)
    _ _ (AInv_init W H terrain occupied costFn start goal)
  simp

theorem a_star_complete (W H : ℕ) (terrain : Pos → Terrain)
    (occupied : Pos → Bool) (costFn : Terrain → Option ℕ)
    (start goal : Pos)
    (hex : ∃ p, valid_path W H terrain occupied costFn start goal p) :
    a_star_pathfinding W H terrain occupied costFn start goal
      ≠ some none := by
  obtain ⟨p, hp⟩ := hex
  show astar_loop W H terrain occupied costFn goal (W * H + 1)
      [⟨start, [start], 0, distance start goal, 0 + distance start goal⟩] []
      ≠ some none
  exact astar_loop_complete W H terrain occupied costFn start goal (W * H + 1)
    _ _ p (AInv_init W H terrain occupied costFn start goal) hp

theorem a_star_opt (W H : ℕ) (terrain : Pos → Terrain)
    (occupied : Pos → Bool) (costFn : Terrain → Option ℕ)
    (start goal : Pos) (p : List Pos)
    (hc : ∀ t c, costFn t = some c → 1 ≤ c)
    (h : a_star_pathfinding W H terrain occupied costFn start goal
      = some (some p)) :
    ∀ q, valid_path W H terrain occupied costFn start goal q
      → path_cost terrain costFn p ≤ path_cost terrain costFn q := by
  have h2 : astar_loop W H terrain occupied costFn goal (W * H + 1)
      [⟨start, [start], 0, distance start goal, 0 + distance start goal⟩] []
      = some (some p) := h
  exact astar_loop_opt W H terrain occupied costFn start goal hc (W * H + 1)
    _ _ p (AInv_init W H terrain occupied costFn start goal)
    (AGhost_init W H terrain occupied costFn start goal) h2

/-- C5 counterexample: the claim says A* returns "no path" whenever the
goal is occupied by a live unit that is not the mover, but on a 3x1 plains
strip with a live non-mover unit standing on the goal (2, 0) the search
returns the full path onto the occupied goal, because the occupancy test
of a_star_pathfinding explicitly exempts the destination cell
(next_pos != end_pos). -/
theorem claim_C5_counterexample :
    a_star_pathfinding 3 1 plains_terrain c5_occ unit_move_costs
        ((0 : ℤ), (0 : ℤ)) ((2 : ℤ), (0 : ℤ))
      = some (some [((0 : ℤ), (0 : ℤ)), ((1 : ℤ), (0 : ℤ)),
          ((2 : ℤ), (0 : ℤ))])
      ∧ c5_occ ((2 : ℤ), (0 : ℤ)) = true := by
  exact ⟨by decide, rfl⟩

/-- C5 (amended): a_star_pathfinding, run with fuel W*H+1, never exhausts
its fuel, and (1) every returned path is a genuine path: it starts at the
start cell, ends at the goal cell, moves in unit 4-directional steps, and
every entered cell is on the map, passable for the unit's cost function,
and unoccupied unless it is the goal cell (the goal is exempt from the
occupancy test, contrary to the claim); (2) whenever any such path exists
the search returns one rather than "no path". -/
theorem claim_C5_amended (W H : ℕ) (terrain : Pos → Terrain)
    (occupied : Pos → Bool) (costFn : Terrain → Option ℕ)
    (start goal : Pos) :
    (∀ p, a_star_pathfinding W H terrain occupied costFn start goal
        = some (some p)
      → valid_path W H terrain occupied costFn start goal p)
      ∧ ((∃ p, valid_path W H terrain occupied costFn start goal p)
          → ∃ p, a_star_pathfinding W H terrain occupied costFn start goal
                = some (some p)
              ∧ valid_path W H terrain occupied costFn start goal p) := by
  constructor
  · intro p h
    exact a_star_sound W H terrain occupied costFn start goal p h
  · intro hex
    rcases hres : a_star_pathfinding W H terrain occupied costFn start goal
      with _ | _ | p
    · exact absurd hres
        (a_star_no_fuel_out W H terrain occupied costFn start goal)
    · exact absurd hres
        (a_star_complete W H terrain occupied costFn start goal hex)
    · exact ⟨p, rfl,
        a_star_sound W H terrain occupied costFn start goal p hres⟩

theorem claim_C5_amended_witness :
    ∃ p, a_star_pathfinding 2 1 plains_terrain no_occupancy unit_move_costs
          ((0 : ℤ), (0 : ℤ)) ((1 : ℤ), (0 : ℤ)) = some (some p)
        ∧ valid_path 2 1 plains_terrain no_occupancy unit_move_costs
            ((0 : ℤ), (0 : ℤ)) ((1 : ℤ), (0 : ℤ)) p :=
  (claim_C5_amended 2 1 plains_terrain no_occupancy unit_move_costs
      ((0 : ℤ), (0 : ℤ)) ((1 : ℤ), (0 : ℤ))).2
    ⟨[((0 : ℤ), (0 : ℤ)), ((1 : ℤ), (0 : ℤ))], by
      refine ⟨rfl, rfl, ?_, ?_⟩
      · rw [List.chain'_cons]
        exact ⟨by decide, List.chain'_singleton _⟩
      · decide⟩

/-- C6: with every terrain cost at least 1, (1) every path returned by
a_star_pathfinding is a genuine start-to-goal path of minimum summed
terrain cost among all 4-connected paths that avoid occupied cells (goal
excepted), and (2) the search reports "no path" exactly when no such path
exists. -/
theorem claim_C6_optimal (W H : ℕ) (terrain : Pos → Terrain)
    (occupied : Pos → Bool) (costFn : Terrain → Option ℕ)
    (start goal : Pos)
    (hc : ∀ t c, costFn t = some c → 1 ≤ c) :
    (∀ p, a_star_pathfinding W H terrain occupied costFn start goal
        = some (some p)
      → valid_path W H terrain occupied costFn start goal p
        ∧ ∀ q, valid_path W H terrain occupied costFn start goal q
            → path_cost terrain costFn p ≤ path_cost terrain costFn q)
      ∧ (a_star_pathfinding W H terrain occupied costFn start goal
            = some none
          ↔ ¬ ∃ p, valid_path W H terrain occupied costFn start goal p) := by
  constructor
  · intro p h
    exact ⟨a_star_sound W H terrain occupied costFn start goal p h,
      a_star_opt W H terrain occupied costFn start goal p hc h⟩
  · constructor
    · intro heq hex
      exact a_star_complete W H terrain occupied costFn start goal hex heq
    · intro hnp
      rcases hres : a_star_pathfinding W H terrain occupied costFn start goal
        with _ | _ | p
      · exact absurd hres
          (a_star_no_fuel_out W H terrain occupied costFn start goal)
      · rfl
      · exact absurd
          ⟨p, a_star_sound W H terrain occupied costFn start goal p hres⟩
          hnp

theorem claim_C6_optimal_witness :
    valid_path 2 1 plains_terrain no_occupancy unit_move_costs
        ((0 : ℤ), (0 : ℤ)) ((1 : ℤ), (0 : ℤ))
        [((0 : ℤ), (0 : ℤ)), ((1 : ℤ), (0 : ℤ))]
      ∧ ∀ q, valid_path 2 1 plains_terrain no_occupancy unit_move_costs
            ((0 : ℤ), (0 : ℤ)) ((1 : ℤ), (0 : ℤ)) q
          → path_cost plains_terrain unit_move_costs
              [((0 : ℤ), (0 : ℤ)), ((1 : ℤ), (0 : ℤ))]
            ≤ path_cost plains_terrain unit_move_costs q :=
  (claim_C6_optimal 2 1 plains_terrain no_occupancy unit_move_costs
      ((0 : ℤ), (0 : ℤ)) ((1 : ℤ), (0 : ℤ))
      (by intro t c h; cases t <;> simp [unit_move_costs, move_cost] at h <;>
        omega)).1
    [((0 : ℤ), (0 : ℤ)), ((1 : ℤ), (0 : ℤ))] (by decide)

end Sinple
